import Mathlib

/-!
Verification of the `gfbi_core` editable git-history model.

This file gives a shallow embedding of the data model and the operations of
`gfbi_core` (an interactive git history rewriting engine) and proves, or
refutes, the frozen claims about it.  The embedding follows the Python
source files under `src/gfbi_core/`:

* `util.py`              — `Index`, `Timezone`, `DummyCommit`, the history
                           `Action` classes;
* `editable_git_model.py` — `EditableGitModel`: overlay reads and writes,
                           undo/redo history, deletion/insertion,
                           the rewrite frontier `get_start_write_from`,
                           `all_parents`, `reorder_commits`;
* `git_model.py`         — `GitModel.data` (the layered read of the base
                           model).

Commits are modelled as an arena of integer identifiers (`Commit.real` for
real commits, `Commit.dummy` for the `DummyCommit` placeholders), field
values as a closed `Value` grammar, and Python dictionaries as association
lists with Python's update semantics (update in place, append when the key
is new).  Python exceptions are modelled by the `PyError` type; operations
that can raise *after* having mutated the model return
`Model × Option PyError`, the partially mutated state together with the
error, mirroring in-place mutation interrupted by an exception.
-/

namespace Gfbi

/-- A commit of the arena: a real commit of the repository, or a
`DummyCommit` placeholder created by `insert_rows` (util.py:106-111);
dummies carry a fresh identifier so that distinct placeholders are
distinguishable, like distinct Python objects. -/
inductive Commit : Type
  | real (id : Nat)
  | dummy (id : Nat)
deriving DecidableEq, Repr

/-- `True` exactly on `DummyCommit` instances (`isinstance(commit, DummyCommit)`). -/
def Commit.isDummy : Commit → Bool
  | .real _ => false
  | .dummy _ => true

/-- The commit fields used as columns (spec §4.C stable order; the keys of
`NAMES` in `__init__.py` restricted to the column set). -/
inductive Field : Type
  | hexsha
  | authored_date
  | committed_date
  | author_name
  | author_email
  | committer_name
  | committer_email
  | message
  | parents
  | tree
  | children
deriving DecidableEq, Repr

/-- `TIME_FIELDS` from `__init__.py:43`. -/
def TIME_FIELDS : List Field := [Field.authored_date, Field.committed_date]

/-- `ACTOR_FIELDS` from `__init__.py:42`. -/
def ACTOR_FIELDS : List Field :=
  [Field.author_name, Field.committer_name, Field.author_email, Field.committer_email]

/-- The field values moved around by the model.  `time` is the Python pair
`(timestamp, Timezone)` (the timezone carried by its `tz_string`), `commits`
a list value (the `parents`/`children` columns), `none` Python's `None`.
`missing` marks a lookup on which the Python source would raise (`KeyError`
on a missing field of a modification map, `IndexError` on a bad column);
the theorems' hypotheses keep every evaluation away from it. -/
inductive Value : Type
  | none
  | int (n : Int)
  | str (s : String)
  | time (epoch : Int) (tz : String)
  | commits (l : List Commit)
  | missing
deriving DecidableEq, Repr

/-- `hasattr(x, 'binsha')`, used by the GitPython pre-check in
`EditableGitModel.set_data` (editable_git_model.py:200-201).  No value of
the embedded grammar is a bare GitPython object carrying `binsha` (commit
lists do not have the attribute), and in the source `==` between a
`binsha`-carrying object and any other value is `False`, so the pre-check
never fires on states of this embedding. -/
def Value.hasBinsha : Value → Bool
  | .none => false
  | .int _ => false
  | .str _ => false
  | .time _ _ => false
  | .commits _ => false
  | .missing => false

/-- `util.Index` (util.py:25-54): a row/column pair.  The row is an integer
(Python rows can be negative). -/
structure Index : Type where
  row : Int
  column : Nat
deriving DecidableEq, Repr

/-- The immutable snapshot of one real commit (the fields read by
`GitModel`); timezones are kept in their `±HHMM` string form. -/
structure BaseData : Type where
  hexsha : String
  author_name : String
  author_email : String
  authored_date : Int
  author_tz : String
  committer_name : String
  committer_email : String
  committed_date : Int
  committer_tz : String
  message : String
  parents : List Commit
  tree : String
  children : List Commit
deriving DecidableEq, Repr

/-- The history actions of `util.py:114-174`.  `set` stores the recorded
`reference` (`old`) and the assigned value; `insert`/`remove` carry the
snapshot of the modification map, `remove`'s being `Option`al (`None` when
the commit had no modifications). -/
inductive Action : Type
  | insert (position : Int) (commit : Commit) (mods : List (Field × Value))
  | set (index : Index) (old new : Value)
  | remove (position : Int) (commit : Commit) (mods : Option (List (Field × Value)))
  | setBranchName (oldName newName : String)
deriving DecidableEq, Repr

/-- The Python exceptions the embedded operations can raise. -/
inductive PyError : Type
  | invalidIndex
  | indexError
  | keyError
  | typeError
  | valueError
deriving DecidableEq, Repr

/-- Python list indexing `l[i]`: negative indices count from the end;
`Option.none` is an `IndexError`. -/
def pyGet? (l : List α) (i : Int) : Option α :=
  if 0 ≤ i then l.get? i.toNat
  else if 0 ≤ (l.length : Int) + i then l.get? ((l.length : Int) + i).toNat
  else Option.none

/-- Replace the element at Python index `i` (used for in-place mutation of
`self._history[cursor]`); out-of-range leaves the list unchanged (the
callers have validated the index through `pyGet?`). -/
def pySet (l : List α) (i : Int) (x : α) : List α :=
  if 0 ≤ i then l.set i.toNat x
  else if 0 ≤ (l.length : Int) + i then l.set ((l.length : Int) + i).toNat x
  else l

/-- Python `list.insert(pos, x)`: positions past the end append, negative
positions count from the end and clamp at the front. -/
def pyInsert (l : List α) (pos : Int) (x : α) : List α :=
  let n : Nat := if pos < 0 then (max 0 ((l.length : Int) + pos)).toNat
                 else min pos.toNat l.length
  l.take n ++ x :: l.drop n

/-- Python `list.pop(pos)`: returns the removed element and the remaining
list, `Option.none` on an out-of-range position (`IndexError`). -/
def pyPop? (l : List α) (pos : Int) : Option (α × List α) :=
  match pyGet? l pos with
  | Option.none => Option.none
  | some x =>
      let n : Nat := if 0 ≤ pos then pos.toNat else ((l.length : Int) + pos).toNat
      some (x, l.take n ++ l.drop (n + 1))

/-- Association-list lookup (Python `d[k]` / `k in d`). -/
def lookupA [DecidableEq α] : List (α × β) → α → Option β
  | [], _ => Option.none
  | (k, v) :: rest, key => if k = key then some v else lookupA rest key

/-- Python dictionary update `d[k] = v`: overwrite in place when the key is
present, append otherwise. -/
def updateA [DecidableEq α] (l : List (α × β)) (key : α) (v : β) : List (α × β) :=
  if (lookupA l key).isSome then
    l.map (fun p => if p.1 = key then (key, v) else p)
  else l ++ [(key, v)]

/-- Python dictionary `d.pop(k)`: drop the entry with the given key. -/
def eraseA [DecidableEq α] (l : List (α × β)) (key : α) : List (α × β) :=
  l.filter (fun p => p.1 ≠ key)

variable {α β : Type _}

/-- First index of an element in a list (Python `list.index`); the length
when absent (where the source raises `ValueError`). -/
def listIndex [DecidableEq α] : List α → α → Nat
  | [], _ => 0
  | x :: rest, y => if x = y then 0 else listIndex rest y + 1

/-- The state of an `EditableGitModel` (editable_git_model.py:50-65 together
with the inherited `GitModel` attributes).  `base` is the immutable
repository snapshot behind the model (indexed by the identifier of a real
commit); `check_ref_ok` stands for the external
`git check-ref-format refs/tags/<name>` subprocess consulted by
`validation.py`; `dummy_counter` supplies the fresh object identities of
`DummyCommit()`; `old_branch_name` is the inherited `_old_branch_name`
attribute read by `set_new_branch_name`. -/
structure Model : Type where
  commits : List Commit
  base : Nat → BaseData
  columns : List Field
  modifications : List (Commit × List (Field × Value))
  deleted_commits : List Commit
  merge : Bool
  history : List (List Action)
  last_history_event : Int
  new_branch_name : String
  old_branch_name : String
  fake : Bool
  show_mods : Bool
  check_ref_ok : String → Bool
  dummy_counter : Nat

/-- The canonical column layout installed by the front-end (spec §4.C:
"Columns (stable order)"). -/
def defaultColumns : List Field :=
  [Field.hexsha, Field.authored_date, Field.committed_date, Field.author_name,
   Field.author_email, Field.committer_name, Field.committer_email,
   Field.message, Field.parents, Field.tree, Field.children]

/-- Modelled from the spec: `GitModel.row_of` is called by the editable
model (editable_git_model.py:142,385) but its definition is not in the
`src/` snapshot of git_model.py; per spec §4.B it returns the row of a
commit, i.e. Python `self._commits.index(commit)` (first occurrence). -/
def row_of (m : Model) (commit : Commit) : Nat :=
  listIndex m.commits commit

/-- Modelled from the spec: `GitModel.get_column` is called by the editable
model (editable_git_model.py:143,387) but is not in the `src/` snapshot;
it returns the column of a field name, i.e. `self._columns.index(field)`. -/
def get_column (m : Model) (field : Field) : Nat :=
  listIndex m.columns field

/-- Python `str.rstrip()`: drop trailing whitespace. -/
def rstrip (s : String) : String :=
  String.mk ((s.data.reverse.dropWhile Char.isWhitespace).reverse)

/-- The original value of one field of a real commit, as produced by the
unmodified branch of `GitModel.data` (git_model.py:229-246): time columns
yield the `(timestamp, Timezone)` pair preserving the commit's timezone,
the message is `rstrip`ped, other columns yield the raw attribute. -/
def origField (b : BaseData) : Field → Value
  | .hexsha => .str b.hexsha
  | .authored_date => .time b.authored_date b.author_tz
  | .committed_date => .time b.committed_date b.committer_tz
  | .author_name => .str b.author_name
  | .author_email => .str b.author_email
  | .committer_name => .str b.committer_name
  | .committer_email => .str b.committer_email
  | .message => .str (rstrip b.message)
  | .parents => .commits b.parents
  | .tree => .str b.tree
  | .children => .commits b.children

/-- Modelled from the spec: `GitModel.orig_data`, called by
`EditableGitModel.data` and `is_modified` (editable_git_model.py:135,378),
is not in the `src/` snapshot of git_model.py; per spec §3/§4.B it returns
the underlying commit field, which is exactly the unmodified branch of the
`GitModel.data` that *is* in the snapshot (git_model.py:229-246), embedded
here as `origField`.  A `DummyCommit` has no such attributes (the source
would raise); `missing` stands for that, as for an invalid row or column. -/
def orig_data (m : Model) (index : Index) : Value :=
  match pyGet? m.commits index.row, m.columns.get? index.column with
  | some (Commit.real id), some field => origField (m.base id) field
  | _, _ => .missing

/-- `EditableGitModel.is_modified` (editable_git_model.py:356-379): a
`DummyCommit` is always modified; otherwise the field is modified when the
overlay holds an entry for it that differs from the original value. -/
def is_modified (m : Model) (index : Index) : Bool :=
  match pyGet? m.commits index.row, m.columns.get? index.column with
  | some commit, some field =>
      if commit.isDummy then true
      else
        match lookupA m.modifications commit with
        | some fm =>
            match lookupA fm field with
            | some v => decide (v ≠ orig_data m index)
            | Option.none => false
        | Option.none => false
  | _, _ => false

/-- `EditableGitModel.modified_data` (editable_git_model.py:146-159).  The
source initializes `value = ""` and overwrites it from the modification
map when the commit has one (raising `KeyError` when the commit's map lacks
the field — `missing` here); the defensive `list(value)` copy taken for
`parents`/`children` is the identity on values. -/
def modified_data (m : Model) (index : Index) : Value :=
  match pyGet? m.commits index.row, m.columns.get? index.column with
  | some commit, some field =>
      match lookupA m.modifications commit with
      | some fm =>
          match lookupA fm field with
          | some v => v
          | Option.none => .missing
      | Option.none => .str ""
  | _, _ => .missing

/-- `EditableGitModel.data` (editable_git_model.py:121-135): the layered
read — the overlay when the field is modified, the original value
otherwise. -/
def data (m : Model) (index : Index) : Value :=
  if is_modified m index then modified_data m index else orig_data m index

/-- `EditableGitModel.c_data` (editable_git_model.py:137-144): access by
commit and field name. -/
def c_data (m : Model) (commit : Commit) (field : Field) : Value :=
  data m ⟨(row_of m commit : Nat), get_column m field⟩

/-- The argument of `EditableGitModel.is_deleted`: an index or a commit
(dispatched in the source with `hasattr(indexorcommit, 'row')`). -/
inductive IndexOrCommit : Type
  | index (i : Index)
  | commit (c : Commit)

/-- `EditableGitModel.is_deleted` (editable_git_model.py:334-347): raises
`GfbiException("Invalid index")` for an out-of-range row, else membership
of the commit in `_deleted_commits`. -/
def is_deleted (m : Model) : IndexOrCommit → Except PyError Bool
  | .index i =>
      if ¬(0 ≤ i.row ∧ i.row < (m.commits.length : Int)) then .error .invalidIndex
      else
        match pyGet? m.commits i.row with
        | some commit => .ok (commit ∈ m.deleted_commits)
        | Option.none => .error .invalidIndex
  | .commit c => .ok (c ∈ m.deleted_commits)

/-- Membership of the commit at a row in `_deleted_commits`, the value of
`is_deleted` at a row the caller has already validated. -/
def is_deleted_at (m : Model) (row : Int) : Bool :=
  match pyGet? m.commits row with
  | some commit => decide (commit ∈ m.deleted_commits)
  | Option.none => false

/-- `EditableGitModel.is_inserted_commit` (editable_git_model.py:349-354). -/
def is_inserted_commit (m : Model) (index : Index) : Bool :=
  match pyGet? m.commits index.row with
  | some commit => commit.isDummy
  | Option.none => false

/-- `EditableGitModel.commit_is_modified` (editable_git_model.py:381-393):
some column other than `children` is modified and not deleted.  The source
iterates the set `range(column_count) - {children_column}` and asks
`is_modified(index) and not is_deleted(index)` for each. -/
def commit_is_modified (m : Model) (commit : Commit) : Bool :=
  let row : Int := (row_of m commit : Nat)
  (List.range m.columns.length).any fun col =>
    decide (col ≠ get_column m Field.children) &&
    (is_modified m ⟨row, col⟩ && !(is_deleted_at m row))

/-- `EditableGitModel.set_field_data` (editable_git_model.py:224-238):
write one field of one commit into the modification overlay, creating the
commit's map when absent. -/
def set_field_data (m : Model) (commit : Commit) (field : Field) (value : Value) : Model :=
  let fm := (lookupA m.modifications commit).getD []
  { m with modifications := updateA m.modifications commit (updateA fm field value) }

/-- The `self._merge` propagation of `EditableGitModel.set_data`
(editable_git_model.py:210-222): an assignment to one of the paired
time/actor fields also writes the paired field. -/
def merge_propagate (m : Model) (commit : Commit) (field : Field) (value : Value) : Model :=
  if m.merge then
    if field = Field.committed_date then set_field_data m commit Field.authored_date value
    else if field = Field.authored_date then set_field_data m commit Field.committed_date value
    else if field = Field.author_name then set_field_data m commit Field.committer_name value
    else if field = Field.committer_name then set_field_data m commit Field.author_name value
    else if field = Field.author_email then set_field_data m commit Field.committer_email value
    else if field = Field.committer_email then set_field_data m commit Field.author_email value
    else m
  else m

/-- The `reference` computed by `EditableGitModel.set_data`
(editable_git_model.py:190-196): for a time field the pair returned by
`data` is unpacked and only the timestamp is kept (`reference, tz =
self.data(index)`), the `None` guard leaving `reference = None`; unpacking
any other value raises `TypeError`.  For every other field the reference
is `data(index)` itself. -/
def set_reference (m : Model) (index : Index) (field : Field) : Except PyError Value :=
  if field ∈ TIME_FIELDS then
    match data m index with
    | .none => .ok .none
    | .time e _ => .ok (.int e)
    | _ => .error .typeError
  else .ok (data m index)

/-- `EditableGitModel.set_data` (editable_git_model.py:173-222).  Raises
`GfbiException("Invalid index")` for an out-of-range row before touching
anything; then compares the reference against the new value (together with
the GitPython `binsha` pre-check) and, on a difference, writes the overlay,
appends a `Set` action to the current history event (unless
`ignore_history`) and runs the merge propagation.  The returned pair is
the (possibly partially) mutated state and the raised exception, if any. -/
def set_data (m : Model) (index : Index) (value : Value) (ignore_history : Bool) :
    Model × Option PyError :=
  if ¬(0 ≤ index.row ∧ index.row < (m.commits.length : Int)) then (m, some .invalidIndex)
  else
    match pyGet? m.commits index.row with
    | Option.none => (m, some .indexError)
    | some commit =>
        match m.columns.get? index.column with
        | Option.none => (m, some .indexError)
        | some field_name =>
            match set_reference m index field_name with
            | .error e => (m, some e)
            | .ok reference =>
                let git_python_precheck := reference.hasBinsha ≠ value.hasBinsha
                if git_python_precheck ∨ reference ≠ value then
                  let m1 := set_field_data m commit field_name value
                  if ignore_history then
                    (merge_propagate m1 commit field_name value, Option.none)
                  else
                    match pyGet? m1.history m1.last_history_event with
                    | Option.none => (m1, some .indexError)
                    | some ev =>
                        let h2 := pySet m1.history m1.last_history_event
                          (ev ++ [Action.set index reference value])
                        let m2 := { m1 with history := h2 }
                        (merge_propagate m2 commit field_name value, Option.none)
                else (m, Option.none)

/-- `validate_branch_name` (validation.py:4-41): reject the empty string,
names containing a space, tab or newline, and names the external
`git check-ref-format refs/tags/<name>` check refuses. -/
def validate_branch_name (check : String → Bool) (candidate : String) : Option PyError :=
  if candidate = "" then some .valueError
  else if candidate.data.any (fun ch => ch = ' ' || ch = '\t' || ch = '\n') then
    some .valueError
  else if ¬ check candidate then some .valueError
  else Option.none

/-- The tail of `EditableGitModel.set_new_branch_name`
(editable_git_model.py:679-687), after the history action was recorded:
normalize a name equal to the current branch name (or, under
`ignore_history`, the empty name) to "no rename", else validate and store. -/
def set_new_branch_name_store (m : Model) (name : String) (ignore_history : Bool) :
    Model × Option PyError :=
  if name = m.old_branch_name then ({ m with new_branch_name := "" }, Option.none)
  else if ignore_history ∧ name = "" then ({ m with new_branch_name := "" }, Option.none)
  else
    match validate_branch_name m.check_ref_ok name with
    | some e => (m, some e)
    | Option.none => ({ m with new_branch_name := name }, Option.none)

/-- `EditableGitModel.set_new_branch_name` (editable_git_model.py:669-687):
strip the name, record a `SetBranchName` action (the action is appended
*before* validation runs), then normalize/validate/store. -/
def set_new_branch_name (m : Model) (name0 : String) (ignore_history : Bool) :
    Model × Option PyError :=
  let name := name0.trim
  if ignore_history then set_new_branch_name_store m name ignore_history
  else
    match pyGet? m.history m.last_history_event with
    | Option.none => (m, some .indexError)
    | some ev =>
        let h1 := pySet m.history m.last_history_event
          (ev ++ [Action.setBranchName m.new_branch_name name])
        let m1 := { m with history := h1 }
        set_new_branch_name_store m1 name ignore_history

/-- `EditableGitModel.start_history_event` (editable_git_model.py:240-249):
`while cursor < len(history) - 1: history.pop()` pops the trailing events
until the cursor indexes the final one — for cursors ≥ -1 (the maintained
invariant) exactly truncation to the first `cursor + 1` events — then the
cursor advances and an empty event is appended. -/
def start_history_event (m : Model) : Model :=
  let h := m.history.take (m.last_history_event + 1).toNat
  { m with history := h ++ [[]], last_history_event := m.last_history_event + 1 }

/-- `EditableGitModel.insert_commit` (editable_git_model.py:279-286):
reinsert a commit at a row, restoring its modification map when the
snapshot is truthy (a non-empty dict). -/
def insert_commit (m : Model) (row : Int) (commit : Commit) (mods : List (Field × Value)) :
    Model :=
  let m1 := { m with commits := pyInsert m.commits row commit }
  if mods ≠ [] then { m1 with modifications := updateA m1.modifications commit mods }
  else m1

/-- `EditableGitModel.undelete_commit` (editable_git_model.py:270-277):
`self._deleted_commits.remove(commit)` (raising `ValueError` when absent),
then restore the modification snapshot when it is truthy. -/
def undelete_commit (m : Model) (commit : Commit) (mods : Option (List (Field × Value))) :
    Model × Option PyError :=
  if commit ∈ m.deleted_commits then
    let m1 := { m with deleted_commits := m.deleted_commits.erase commit }
    match mods with
    | some fm =>
        if fm ≠ [] then
          ({ m1 with modifications := updateA m1.modifications commit fm }, Option.none)
        else (m1, Option.none)
    | Option.none => (m1, Option.none)
  else (m, some .valueError)

/-- The fields initialized to `None` on a freshly inserted `DummyCommit`
(editable_git_model.py:302-303): the keys of `NAMES` (`__init__.py:21-30`)
restricted to the column set.  `NAMES` also holds keys no column ever
reads (`actor_name`, `count`, `diff`, `diffs`, `find_all`,
`lazy_properties`, `list_from_string`, `repo`, `stats`, `summary`), which
the embedding drops; note that `children` is *not* a `NAMES` key. -/
def NAMES_FIELDS : List Field :=
  [Field.author_name, Field.author_email, Field.authored_date, Field.committed_date,
   Field.committer_name, Field.committer_email, Field.hexsha, Field.message,
   Field.parents, Field.tree]

/-- One iteration of the `insert_rows` loop (editable_git_model.py:297-306):
create a fresh `DummyCommit`, insert it, give it an all-`None` modification
map, and record an `Insert` action. -/
def insert_rows_step (m : Model) (position : Int) : Model × Option PyError :=
  let commit := Commit.dummy m.dummy_counter
  let m1 := { m with commits := pyInsert m.commits position commit,
                     dummy_counter := m.dummy_counter + 1 }
  let fm := NAMES_FIELDS.map (fun f => (f, Value.none))
  let m2 := { m1 with modifications := updateA m1.modifications commit fm }
  match pyGet? m2.history m2.last_history_event with
  | Option.none => (m2, some .indexError)
  | some ev =>
      let h2 := pySet m2.history m2.last_history_event
        (ev ++ [Action.insert position commit fm])
      ({ m2 with history := h2 }, Option.none)

/-- Run a state step `n` times, stopping at the first raised exception and
returning the partially mutated state (Python's in-place loop). -/
def iterN : Nat → (Model → Model × Option PyError) → Model → Model × Option PyError
  | 0, _, m => (m, Option.none)
  | n + 1, f, m =>
      match f m with
      | (m', some e) => (m', some e)
      | (m', Option.none) => iterN n f m'

/-- `EditableGitModel.insert_rows` (editable_git_model.py:288-306). -/
def insert_rows (m : Model) (position : Int) (rows : Nat) : Model × Option PyError :=
  iterN rows (fun mm => insert_rows_step mm position) m

/-- One iteration of the `remove_rows` loop (editable_git_model.py:318-332)
at loop counter `i`: under `really_remove` pop the row and drop its
modification entry (`KeyError` when absent); otherwise mark the commit at
`position + i` deleted (idempotently) and record a `Remove` action carrying
the modification snapshot (`None` when the commit has no entry). -/
def remove_rows_step (m : Model) (position : Int) (i : Nat)
    (ignore_history really_remove : Bool) : Model × Option PyError :=
  if really_remove then
    match pyPop? m.commits position with
    | Option.none => (m, some .indexError)
    | some (commit, rest) =>
        let m1 := { m with commits := rest }
        if (lookupA m1.modifications commit).isSome then
          ({ m1 with modifications := eraseA m1.modifications commit }, Option.none)
        else (m1, some .keyError)
  else
    match pyGet? m.commits (position + (i : Int)) with
    | Option.none => (m, some .indexError)
    | some commit =>
        if commit ∈ m.deleted_commits then (m, Option.none)
        else
          let m1 := { m with deleted_commits := m.deleted_commits ++ [commit] }
          if ignore_history then (m1, Option.none)
          else
            let mods := lookupA m1.modifications commit
            match pyGet? m1.history m1.last_history_event with
            | Option.none => (m1, some .indexError)
            | some ev =>
                let h1 := pySet m1.history m1.last_history_event
                  (ev ++ [Action.remove position commit mods])
                ({ m1 with history := h1 }, Option.none)

/-- The `remove_rows` loop, tracking the Python loop counter `i`. -/
def remove_rows_loop (position : Int) (ignore_history really_remove : Bool) :
    Nat → Nat → Model → Model × Option PyError
  | 0, _, m => (m, Option.none)
  | n + 1, i, m =>
      match remove_rows_step m position i ignore_history really_remove with
      | (m', some e) => (m', some e)
      | (m', Option.none) => remove_rows_loop position ignore_history really_remove n (i + 1) m'

/-- `EditableGitModel.remove_rows` (editable_git_model.py:308-332). -/
def remove_rows (m : Model) (position : Int) (rows : Nat)
    (ignore_history really_remove : Bool) : Model × Option PyError :=
  remove_rows_loop position ignore_history really_remove rows 0 m

/-- `Action.undo` of the four `HistoryAction` classes (util.py:120-174). -/
def action_undo (m : Model) : Action → Model × Option PyError
  | .insert pos _ _ => remove_rows m pos 1 true true
  | .set idx old _ => set_data m idx old true
  | .remove _ c mods => undelete_commit m c mods
  | .setBranchName old _ => set_new_branch_name m old true

/-- `Action.redo` of the four `HistoryAction` classes (util.py:120-174). -/
def action_redo (m : Model) : Action → Model × Option PyError
  | .insert pos c mods => (insert_commit m pos c mods, Option.none)
  | .set idx _ new => set_data m idx new true
  | .remove pos _ _ => remove_rows m pos 1 true false
  | .setBranchName _ new => set_new_branch_name m new true

/-- Apply the actions of one event in order, stopping at the first raised
exception with the partially mutated state. -/
def runActions : List Action → (Model → Action → Model × Option PyError) → Model →
    Model × Option PyError
  | [], _, m => (m, Option.none)
  | a :: rest, step, m =>
      match step m a with
      | (m', some e) => (m', some e)
      | (m', Option.none) => runActions rest step m'

/-- `EditableGitModel.undo_history` (editable_git_model.py:251-259): when
an event is current, play its actions backwards and decrement the cursor. -/
def undo_history (m : Model) : Model × Option PyError :=
  if 0 ≤ m.last_history_event then
    match pyGet? m.history m.last_history_event with
    | Option.none => (m, some .indexError)
    | some ev =>
        match runActions ev.reverse action_undo m with
        | (m', some e) => (m', some e)
        | (m', Option.none) =>
            ({ m' with last_history_event := m'.last_history_event - 1 }, Option.none)
  else (m, Option.none)

/-- `EditableGitModel.redo_history` (editable_git_model.py:261-268): when a
later event exists, advance the cursor first and play its actions forward. -/
def redo_history (m : Model) : Model × Option PyError :=
  if m.last_history_event < (m.history.length : Int) - 1 then
    let m1 := { m with last_history_event := m.last_history_event + 1 }
    match pyGet? m1.history m1.last_history_event with
    | Option.none => (m1, some .indexError)
    | some ev => runActions ev action_redo m1
  else (m, Option.none)

/-- The list the `all_parents` generator iterates for one commit:
`self.c_data(commit, "parents")` (editable_git_model.py:492).  A value that
is not a commit list (for instance the `None` stored for a fresh
`DummyCommit`) makes the source raise when iterated; the embedding returns
`[]` there and the theorems' hypotheses require every reachable `parents`
value to be a commit list. -/
def parentsOf (m : Model) (c : Commit) : List Commit :=
  match c_data m c Field.parents with
  | .commits l => l
  | _ => []

/-- One saturation round of the `all_parents` worklist
(editable_git_model.py:483-494): adjoin every parent of a known commit not
seen yet. -/
def satStep (m : Model) (cs : List Commit) : List Commit :=
  cs ++ ((cs.flatMap (parentsOf m)).dedup.filter (fun x => decide (x ∉ cs)))

/-- Iterated saturation. -/
def sat (m : Model) : Nat → List Commit → List Commit
  | 0, cs => cs
  | n + 1, cs => sat m n (satStep m cs)

/-- `EditableGitModel.all_parents` (editable_git_model.py:483-494): the set
of commits reachable from `commit` through one or more `parents` edges (the
worklist generator run to completion).  On an acyclic graph whose edges
stay inside `commits`, `m.commits.length + 1` saturation rounds from the
direct parents reach the closure the generator enumerates; on a cyclic
graph the source generator does not terminate. -/
def all_parents (m : Model) (c : Commit) : List Commit :=
  sat m (m.commits.length + 1) ((parentsOf m c).dedup)

/-- The base set of `get_start_write_from`
(editable_git_model.py:453-456): the keys of `_modifications` for which
`commit_is_modified` holds. -/
def gswf_base (m : Model) : List Commit :=
  (m.modifications.map Prod.fst).filter (fun c => commit_is_modified m c)

/-- The inner pruning loop of `get_start_write_from`
(editable_git_model.py:464-472): with pruner `parent`, remove from
`smaller` every other base element that is still present and has `parent`
among its ancestors.  (The source also reads
`self.c_data(_parent, "parents")` into an unused local, a dead line.) -/
def prune_inner (m : Model) (base : List Commit) (parent : Commit)
    (smaller : List Commit) : List Commit :=
  (base.filter (fun q => decide (q ≠ parent))).foldl
    (fun sm q =>
      if q ∈ sm ∧ parent ∈ all_parents m q then sm.erase q else sm) smaller

/-- `EditableGitModel.get_start_write_from`
(editable_git_model.py:445-481), on a cache miss (the `_start_write_cache`
memoization, keyed by the tuple of modification keys, only replays an
earlier result and is not part of the state here).  The outer loop skips
pruners that have themselves been removed; the special case returns the
top commit for a fake model with no modified commit (`self._commits[0]`
raises on an empty list — junk `[]` here). -/
def get_start_write_from (m : Model) : List Commit :=
  let parents := gswf_base m
  let smaller := parents.foldl
    (fun sm parent => if parent ∈ sm then prune_inner m parents parent sm else sm)
    parents
  if parents = [] ∧ m.fake = true then
    match m.commits with
    | c :: _ => [c]
    | [] => []
  else smaller

/-- Modelled from the spec: the `non_continuous_timelapse` consumed by
`reorder_commits` (imported at editable_git_model.py:19 from
`non_continuous_timelapse.py`, a module absent from the `src/` snapshot).
Per spec §4.D it exposes `total_seconds()` and a map
`datetime_from_seconds` from `[0, total_seconds)` monotonically onto the
admissible instants; `instant` is that map composed with the source's
`int(mktime(·.timetuple()))` conversion to seconds-since-epoch. -/
structure Timelapse : Type where
  total_seconds : Nat
  instant : Nat → Int

/-- `EditableGitModel.reorder_commits` (editable_git_model.py:535-569):
sort the per-commit uniform draws ascending and assign the k-th value to
the k-th commit in row order, writing both `authored_date` and
`committed_date` through `set_field_data`.  The random draws
`int(random() * total_seconds)` (each in `[0, total_seconds)`) are passed
in as `draws`; the source indexes `distribution[index]` and raises when
there are fewer draws than commits, which the `zip` below avoids — the
theorems require equal lengths. -/
def reorder_commits (m : Model) (tl : Timelapse) (draws : List Nat) : Model :=
  let distribution := draws.mergeSort (· ≤ ·)
  (m.commits.zip distribution).foldl
    (fun mm cd =>
      let t := tl.instant cd.2
      set_field_data (set_field_data mm cd.1 Field.authored_date (Value.int t))
        cd.1 Field.committed_date (Value.int t))
    m

/-- Python `int()` on a string of decimal digits (the only shapes the
timezone parser feeds it; other strings raise `ValueError` in the source). -/
def digitsToNat (cs : List Char) : Nat :=
  cs.foldl (fun n ch => n * 10 + (ch.toNat - '0'.toNat)) 0

/-- `Timezone.utcoffset` (util.py:73-84), as a total offset in minutes
(`timedelta(hours=hour, minutes=minutes)`): the sign is read from the first
character, the hour from the slice `tz_string[1:-2]` and the minutes from
the slice `tz_string[2:]`. -/
def Timezone.utcoffset (tz_string : String) : Int :=
  let cs := tz_string.data
  let sign : Int := if cs.head? = some '+' then 1 else -1
  let hour : Int := sign * (digitsToNat ((cs.drop 1).dropLast.dropLast) : Int)
  let minutes : Int := sign * (digitsToNat (cs.drop 2) : Int)
  hour * 60 + minutes

/-- `Timezone.tzname` (util.py:86-93): the stored string representation. -/
def Timezone.tzname (tz_string : String) : String := tz_string

/-- `GitModel.is_modified` (git_model.py:330-349): presence of an overlay
entry, with no comparison against the original and no `DummyCommit`
special case. -/
def gitmodel_is_modified (m : Model) (index : Index) : Bool :=
  match pyGet? m.commits index.row, m.columns.get? index.column with
  | some commit, some field =>
      ((lookupA m.modifications commit).bind (fun fm => lookupA fm field)).isSome
  | _, _ => false

/-- The unmodified branch of `GitModel.data` (git_model.py:228-246).  The
actor branch evaluates `commit.author_name` etc.; GitPython commits carry
`author`/`committer` objects, not those attributes, so that branch raises
`AttributeError` in the source (`missing` here).  A `DummyCommit` has none
of the attributes at all. -/
def gitmodel_orig_value (m : Model) (commit : Commit) (field : Field) : Value :=
  match commit with
  | .dummy _ => .missing
  | .real id =>
      let b := m.base id
      match field with
      | .authored_date => .time b.authored_date b.author_tz
      | .committed_date => .time b.committed_date b.committer_tz
      | .author_name => .missing
      | .author_email => .missing
      | .committer_name => .missing
      | .committer_email => .missing
      | .message => .str (rstrip b.message)
      | .hexsha => .str b.hexsha
      | .parents => .commits b.parents
      | .tree => .str b.tree
      | .children => .commits b.children

/-- `GitModel.data` (git_model.py:199-246): when modifications are shown
and the field has an overlay entry, a time column pairs the *stored
timestamp* with the commit's original timezone
(`Timezone(altz_to_utctz_str(commit.author_tz_offset))`, abstracted as the
commit's `±HHMM` string) while other columns return the stored value; the
unmodified branch reads the commit snapshot.  A stored time value that is
not a plain timestamp would make the source nest a tuple inside the pair
(`missing` here), and a `DummyCommit` has no timezone offset attribute. -/
def gitmodel_data (m : Model) (index : Index) : Value :=
  match pyGet? m.commits index.row, m.columns.get? index.column with
  | some commit, some field =>
      if m.show_mods && gitmodel_is_modified m index then
        let stored := (lookupA ((lookupA m.modifications commit).getD []) field).getD .missing
        if field ∈ TIME_FIELDS then
          match stored, commit with
          | .int e, .real id =>
              if field = Field.authored_date then .time e ((m.base id).author_tz)
              else .time e ((m.base id).committer_tz)
          | _, _ => .missing
        else stored
      else gitmodel_orig_value m commit field
  | _, _ => .missing

/-- The error surfaced by the replay applicability pre-check (spec §7). -/
inductive WriteError : Type
  | repoMoved
deriving DecidableEq, Repr

/-- Modelled from the spec: the applicability pre-check of `write()`
(spec §4.E "Applicability pre-check (non-fake models)", §8 "Applicability
check" and the `RepoMoved` row of §7).  The check belongs to a revision of
`git_filter_rebase.py` that is not part of the `src/` snapshot (the
snapshot's `git_filter_rebase.__init__` and `pick_and_commit` contain no
such comparison); per the spec's words: compare the current tip hexsha of
the target branch against the model's top-row commit, skipping leading
DummyCommits, and fail with `RepoMoved` if they differ. -/
def write_precheck (m : Model) (branch_tip : String) : Bool :=
  m.fake = false &&
    (match m.commits.dropWhile Commit.isDummy with
     | Commit.real id :: _ => decide ((m.base id).hexsha ≠ branch_tip)
     | _ => false)

/-- Modelled from the spec: `write()` guarded by the applicability
pre-check (spec §4.E, §8): on `RepoMoved` the replay fails before any ref
is modified — the ref store is returned untouched; otherwise the replay
(`rewrite`, left abstract) runs. -/
def write_spec (m : Model) (branch_tip : String) (refs : List (String × String))
    (rewrite : List (String × String) → List (String × String)) :
    Option WriteError × List (String × String) :=
  if write_precheck m branch_tip then (some WriteError.repoMoved, refs)
  else (Option.none, rewrite refs)


/-- The commit at a row (the `self._commits[index.row()]` read shared by
the model operations). -/
def commitAt (m : Model) (row : Int) : Option Commit :=
  pyGet? m.commits row

/-- The overlay entry of one field of one commit
(`self._modifications[commit][field]` when both keys are present). -/
def lookupMod (m : Model) (c : Commit) (f : Field) : Option Value :=
  (lookupA m.modifications c).bind (fun fm => lookupA fm f)

/-- The current history event (`self._history[self._last_history_event]`),
`[]` when the cursor does not index an event. -/
def eventAt (m : Model) : List Action :=
  (pyGet? m.history m.last_history_event).getD []

/-- The paired field written by the merge propagation of `set_data`
(editable_git_model.py:210-222). -/
def pairedField : Field → Option Field
  | .committed_date => some .authored_date
  | .authored_date => some .committed_date
  | .author_name => some .committer_name
  | .committer_name => some .author_name
  | .author_email => some .committer_email
  | .committer_email => some .author_email
  | _ => Option.none

/-- A concrete base commit snapshot used by the concrete evaluations. -/
def exBase : BaseData :=
  { hexsha := "aaaa", author_name := "A", author_email := "a@x",
    authored_date := 1000, author_tz := "+0100",
    committer_name := "C", committer_email := "c@x",
    committed_date := 1500, committer_tz := "-0230",
    message := "msg", parents := [], tree := "t", children := [] }

/-- A concrete one-commit model in its freshly populated state
(`init_attributes`: empty overlay, empty history, cursor -1). -/
def exModel : Model :=
  { commits := [Commit.real 0], base := fun _ => exBase, columns := defaultColumns,
    modifications := [], deleted_commits := [], merge := false, history := [],
    last_history_event := -1, new_branch_name := "", old_branch_name := "master",
    fake := false, show_mods := true, check_ref_ok := fun _ => true,
    dummy_counter := 0 }

/-- A concrete three-commit chain (row 0 newest): commit 0 has parent 1,
commit 1 has parent 2; commits 0 and 2 carry a modified message. -/
def exModel2 : Model :=
  { commits := [Commit.real 0, Commit.real 1, Commit.real 2],
    base := fun id =>
      if id = 0 then { exBase with hexsha := "c0", parents := [Commit.real 1] }
      else if id = 1 then
        { exBase with hexsha := "c1", parents := [Commit.real 2],
                      children := [Commit.real 0] }
      else { exBase with hexsha := "c2", parents := [],
                         children := [Commit.real 1] },
    columns := defaultColumns,
    modifications := [(Commit.real 0, [(Field.message, Value.str "x")]),
                      (Commit.real 2, [(Field.message, Value.str "y")])],
    deleted_commits := [], merge := false, history := [],
    last_history_event := -1, new_branch_name := "", old_branch_name := "master",
    fake := false, show_mods := true, check_ref_ok := fun _ => true,
    dummy_counter := 0 }


theorem lookupA_cons [DecidableEq α] (k : α) (w : β) (rest : List (α × β)) (key : α) :
    lookupA ((k, w) :: rest) key = if k = key then some w else lookupA rest key := rfl

theorem lookupA_map_overwrite [DecidableEq α] (l : List (α × β)) (key : α) (v : β)
    (h : (lookupA l key).isSome) :
    lookupA (l.map (fun p => if p.1 = key then (key, v) else p)) key = some v := by
  induction l with
  | nil => simp [lookupA] at h
  | cons p rest ih =>
      obtain ⟨k, w⟩ := p
      rw [List.map_cons]
      by_cases hk : k = key
      · subst hk
        rw [if_pos rfl, lookupA_cons, if_pos rfl]
      · rw [if_neg hk, lookupA_cons, if_neg hk]
        rw [lookupA_cons, if_neg hk] at h
        exact ih h

theorem lookupA_append_new [DecidableEq α] (l : List (α × β)) (key : α) (v : β) :
    lookupA (l ++ [(key, v)]) key = some ((lookupA l key).getD v) := by
  induction l with
  | nil => simp [lookupA]
  | cons p rest ih =>
      obtain ⟨k, w⟩ := p
      rw [List.cons_append, lookupA_cons, lookupA_cons]
      by_cases hk : k = key
      · rw [if_pos hk, if_pos hk]
        rfl
      · rw [if_neg hk, if_neg hk]
        exact ih

theorem lookupA_updateA_self [DecidableEq α] (l : List (α × β)) (key : α) (v : β) :
    lookupA (updateA l key v) key = some v := by
  unfold updateA
  by_cases h : (lookupA l key).isSome
  · rw [if_pos h]
    exact lookupA_map_overwrite l key v h
  · rw [if_neg h]
    rw [lookupA_append_new]
    rw [Option.not_isSome_iff_eq_none] at h
    simp [h]

theorem lookupA_updateA_ne [DecidableEq α] (l : List (α × β)) (key key' : α) (v : β)
    (h : key ≠ key') : lookupA (updateA l key v) key' = lookupA l key' := by
  unfold updateA
  by_cases hs : (lookupA l key).isSome
  · rw [if_pos hs]
    clear hs
    induction l with
    | nil => simp [lookupA]
    | cons p rest ih =>
        obtain ⟨k, w⟩ := p
        rw [List.map_cons]
        by_cases hk : k = key
        · subst hk
          rw [if_pos rfl, lookupA_cons, lookupA_cons, if_neg h, if_neg h]
          exact ih
        · rw [if_neg hk, lookupA_cons, lookupA_cons]
          by_cases hk' : k = key'
          · rw [if_pos hk', if_pos hk']
          · rw [if_neg hk', if_neg hk']
            exact ih
  · rw [if_neg hs]
    clear hs
    induction l with
    | nil =>
        show lookupA [(key, v)] key' = lookupA [] key'
        rw [lookupA_cons, if_neg h]
    | cons p rest ih =>
        obtain ⟨k, w⟩ := p
        rw [List.cons_append, lookupA_cons, lookupA_cons]
        by_cases hk' : k = key'
        · rw [if_pos hk', if_pos hk']
        · rw [if_neg hk', if_neg hk']
          exact ih



theorem hasBinsha_false (v : Value) : v.hasBinsha = false := by
  cases v <;> rfl

theorem pyGet?_isSome_of_bounds {l : List α} {i : Int}
    (h0 : 0 ≤ i) (h1 : i < (l.length : Int)) : (pyGet? l i).isSome := by
  unfold pyGet?
  rw [if_pos h0]
  have ht : i.toNat < l.length := (Int.toNat_lt h0).mpr h1
  rw [List.get?_eq_get ht]
  rfl

theorem pyGet?_exists_of_bounds {l : List α} {i : Int}
    (h0 : 0 ≤ i) (h1 : i < (l.length : Int)) : ∃ x, pyGet? l i = some x := by
  have := pyGet?_isSome_of_bounds h0 h1
  exact Option.isSome_iff_exists.mp this

/-- `set_reference` raises only `TypeError`. -/
theorem set_reference_error_eq {m : Model} {idx : Index} {f : Field} {e : PyError}
    (h : set_reference m idx f = Except.error e) : e = PyError.typeError := by
  unfold set_reference at h
  by_cases ht : f ∈ TIME_FIELDS
  · rw [if_pos ht] at h
    cases hd : data m idx <;> rw [hd] at h <;> simp at h <;> exact h.symm
  · rw [if_neg ht] at h
    simp at h

theorem set_reference_nontime {m : Model} {idx : Index} {f : Field}
    (h : f ∉ TIME_FIELDS) : set_reference m idx f = Except.ok (data m idx) := by
  unfold set_reference
  rw [if_neg h]

theorem set_reference_time {m : Model} {idx : Index} {f : Field} {e : Int} {tz : String}
    (h : f ∈ TIME_FIELDS) (hd : data m idx = Value.time e tz) :
    set_reference m idx f = Except.ok (Value.int e) := by
  unfold set_reference
  rw [if_pos h, hd]

/-- C10: the claim that `Timezone.utcoffset` of a `±HHMM` string is
sign·HH hours plus sign·MM minutes fails on the code: at `"+0100"` (CET,
one hour, per the class's own docstring) the minute slice `tz_string[2:]`
keeps three characters, so the code returns a 160-minute offset instead of
the claimed 1·60 + 0 = 60 minutes; `tzname` does return the original
string unchanged. -/
theorem claim_C10 :
    Timezone.utcoffset "+0100" = 160 ∧
    (1 : Int) * 60 + 0 = 60 ∧
    Timezone.utcoffset "+0100" ≠ 1 * 60 + 0 ∧
    Timezone.tzname "+0100" = "+0100" := by
  refine ⟨by decide, by decide, by decide, rfl⟩

/-- C6: for a non-fake model whose target branch tip hexsha differs from
the model's top-row commit (skipping leading DummyCommits), `write` fails
with `RepoMoved` and the ref store is returned unmodified. -/
theorem claim_C6 (m : Model) (tip : String) (refs : List (String × String))
    (rewrite : List (String × String) → List (String × String))
    (hfake : m.fake = false) (id : Nat) (rest : List Commit)
    (htop : m.commits.dropWhile Commit.isDummy = Commit.real id :: rest)
    (hdiff : (m.base id).hexsha ≠ tip) :
    write_spec m tip refs rewrite = (some WriteError.repoMoved, refs) := by
  unfold write_spec write_precheck
  rw [hfake, htop]
  simp [hdiff]

theorem claim_C6_witness :
    write_spec exModel "bbbb" [("master", "bbbb")] (fun _ => []) =
      (some WriteError.repoMoved, [("master", "bbbb")]) :=
  claim_C6 exModel "bbbb" [("master", "bbbb")] (fun _ => []) rfl 0 []
    (by decide) (by decide)

/-- C1: the claim that `undo_history` restores every `data(idx)` value
fails on the code, and the code contradicts its own intent (the `Set`
action exists precisely to restore the previous value): after
`start_history_event`, a single `set_data` on the `authored_date` column
(replacing the pair `(1000, "+0100")` by `(2000, "+0100")`), and
`undo_history`, the model reads back the bare epoch `1000` instead of the
original pair — the recorded reference dropped the timezone component. -/
theorem claim_C1_failing :
    (set_data (start_history_event exModel) ⟨0, 1⟩ (Value.time 2000 "+0100") false).2 =
      Option.none ∧
    (undo_history
      (set_data (start_history_event exModel) ⟨0, 1⟩ (Value.time 2000 "+0100") false).1).2 =
      Option.none ∧
    data exModel ⟨0, 1⟩ = Value.time 1000 "+0100" ∧
    data (undo_history
      (set_data (start_history_event exModel) ⟨0, 1⟩ (Value.time 2000 "+0100") false).1).1
      ⟨0, 1⟩ = Value.int 1000 ∧
    Value.int 1000 ≠ Value.time 1000 "+0100" := by
  refine ⟨by decide, by decide, by decide, by decide, by decide⟩



/-- `set_data` never raises `InvalidIndex` once the row check has passed
(the other raises are `IndexError`/`TypeError`). -/
theorem set_data_no_invalidIndex_of_bounds (m : Model) (idx : Index) (v : Value)
    (ih : Bool) (h : 0 ≤ idx.row ∧ idx.row < (m.commits.length : Int)) :
    (set_data m idx v ih).2 ≠ some PyError.invalidIndex := by
  unfold set_data
  rw [if_neg (not_not_intro h)]
  cases hpg : pyGet? m.commits idx.row with
  | none => simp
  | some c =>
      cases hcg : m.columns.get? idx.column with
      | none => simp
      | some f =>
          dsimp only
          cases hsr : set_reference m idx f with
          | error e =>
              have he : e = PyError.typeError := set_reference_error_eq hsr
              subst he
              simp
          | ok r =>
              dsimp only
              by_cases hg : (r.hasBinsha ≠ v.hasBinsha) ∨ r ≠ v
              · rw [if_pos hg]
                cases ih with
                | true => simp
                | false =>
                    cases hh : pyGet? (set_field_data m c f v).history
                        (set_field_data m c f v).last_history_event with
                    | none => simp
                    | some ev => simp
              · rw [if_neg hg]
                simp

/-- C8: `set_data` raises `InvalidIndex` exactly when the row is outside
`[0, len(commits))`, and leaves the model unchanged in that case;
`is_deleted` applied to an index raises `InvalidIndex` under the same
condition. -/
theorem claim_C8 (m : Model) (idx : Index) (v : Value) (ih : Bool) :
    ((set_data m idx v ih).2 = some PyError.invalidIndex ↔
        ¬(0 ≤ idx.row ∧ idx.row < (m.commits.length : Int))) ∧
    (¬(0 ≤ idx.row ∧ idx.row < (m.commits.length : Int)) →
        set_data m idx v ih = (m, some PyError.invalidIndex)) ∧
    ((∃ e, is_deleted m (IndexOrCommit.index idx) = Except.error e) ↔
        ¬(0 ≤ idx.row ∧ idx.row < (m.commits.length : Int))) := by
  refine ⟨?_, ?_, ?_⟩
  · by_cases h : 0 ≤ idx.row ∧ idx.row < (m.commits.length : Int)
    · exact iff_of_false (set_data_no_invalidIndex_of_bounds m idx v ih h)
        (not_not_intro h)
    · apply iff_of_true _ h
      unfold set_data
      rw [if_pos h]
  · intro h
    unfold set_data
    rw [if_pos h]
  · by_cases h : 0 ≤ idx.row ∧ idx.row < (m.commits.length : Int)
    · apply iff_of_false _ (not_not_intro h)
      rintro ⟨e, he⟩
      obtain ⟨c, hc⟩ := pyGet?_exists_of_bounds h.1 h.2
      unfold is_deleted at he
      dsimp only at he
      rw [if_neg (not_not_intro h), hc] at he
      exact Except.noConfusion he
    · apply iff_of_true _ h
      refine ⟨PyError.invalidIndex, ?_⟩
      unfold is_deleted
      dsimp only
      rw [if_pos h]

theorem claim_C8_witness :
    ((set_data exModel ⟨5, 1⟩ (Value.int 7) false).2 = some PyError.invalidIndex ↔
        ¬(0 ≤ (5 : Int) ∧ (5 : Int) < (exModel.commits.length : Int))) ∧
    (¬(0 ≤ (5 : Int) ∧ (5 : Int) < (exModel.commits.length : Int)) →
        set_data exModel ⟨5, 1⟩ (Value.int 7) false = (exModel, some PyError.invalidIndex)) ∧
    ((∃ e, is_deleted exModel (IndexOrCommit.index ⟨5, 1⟩) = Except.error e) ↔
        ¬(0 ≤ (5 : Int) ∧ (5 : Int) < (exModel.commits.length : Int))) :=
  claim_C8 exModel ⟨5, 1⟩ (Value.int 7) false


theorem pairedField_ne {f g : Field} (h : pairedField f = some g) : g ≠ f := by
  cases f <;> simp [pairedField] at h <;> subst h <;> decide

theorem merge_propagate_eq (m : Model) (c : Commit) (f : Field) (v : Value) :
    merge_propagate m c f v =
      (if m.merge then
        match pairedField f with
        | some g => set_field_data m c g v
        | Option.none => m
       else m) := by
  cases f <;> rfl

theorem merge_propagate_commits (m : Model) (c : Commit) (f : Field) (v : Value) :
    (merge_propagate m c f v).commits = m.commits := by
  rw [merge_propagate_eq]
  by_cases hm : m.merge
  · rw [if_pos hm]
    cases pairedField f <;> rfl
  · rw [if_neg hm]

theorem merge_propagate_columns (m : Model) (c : Commit) (f : Field) (v : Value) :
    (merge_propagate m c f v).columns = m.columns := by
  rw [merge_propagate_eq]
  by_cases hm : m.merge
  · rw [if_pos hm]
    cases pairedField f <;> rfl
  · rw [if_neg hm]

theorem merge_propagate_base (m : Model) (c : Commit) (f : Field) (v : Value) :
    (merge_propagate m c f v).base = m.base := by
  rw [merge_propagate_eq]
  by_cases hm : m.merge
  · rw [if_pos hm]
    cases pairedField f <;> rfl
  · rw [if_neg hm]

theorem merge_propagate_history (m : Model) (c : Commit) (f : Field) (v : Value) :
    (merge_propagate m c f v).history = m.history := by
  rw [merge_propagate_eq]
  by_cases hm : m.merge
  · rw [if_pos hm]
    cases pairedField f <;> rfl
  · rw [if_neg hm]

theorem merge_propagate_last (m : Model) (c : Commit) (f : Field) (v : Value) :
    (merge_propagate m c f v).last_history_event = m.last_history_event := by
  rw [merge_propagate_eq]
  by_cases hm : m.merge
  · rw [if_pos hm]
    cases pairedField f <;> rfl
  · rw [if_neg hm]

theorem set_data_true_preserves (m : Model) (idx : Index) (v : Value) :
    (set_data m idx v true).1.history = m.history ∧
    (set_data m idx v true).1.last_history_event = m.last_history_event := by
  unfold set_data
  by_cases h : ¬(0 ≤ idx.row ∧ idx.row < (m.commits.length : Int))
  · rw [if_pos h]
    exact ⟨rfl, rfl⟩
  · rw [if_neg h]
    cases hpg : pyGet? m.commits idx.row with
    | none => exact ⟨rfl, rfl⟩
    | some c =>
        cases hcg : m.columns.get? idx.column with
        | none => exact ⟨rfl, rfl⟩
        | some f =>
            dsimp only
            cases hsr : set_reference m idx f with
            | error e => exact ⟨rfl, rfl⟩
            | ok r =>
                dsimp only
                by_cases hg : (r.hasBinsha ≠ v.hasBinsha) ∨ r ≠ v
                · rw [if_pos hg]
                  refine ⟨?_, ?_⟩ <;>
                    simp [merge_propagate_history, merge_propagate_last, set_field_data]
                · rw [if_neg hg]
                  exact ⟨rfl, rfl⟩

theorem remove_rows_single_preserves (m : Model) (pos : Int) (rr : Bool) :
    (remove_rows m pos 1 true rr).1.history = m.history ∧
    (remove_rows m pos 1 true rr).1.last_history_event = m.last_history_event := by
  unfold remove_rows remove_rows_loop
  cases hstep : remove_rows_step m pos 0 true rr with
  | mk m1 e =>
      have hm1 : m1.history = m.history ∧ m1.last_history_event = m.last_history_event := by
        unfold remove_rows_step at hstep
        cases rr with
        | true =>
            rw [if_pos rfl] at hstep
            cases hp : pyPop? m.commits pos with
            | none =>
                rw [hp] at hstep
                cases hstep
                exact ⟨rfl, rfl⟩
            | some cr =>
                rw [hp] at hstep
                dsimp only at hstep
                by_cases hl : (lookupA m.modifications cr.1).isSome
                · rw [if_pos hl] at hstep
                  cases hstep
                  exact ⟨rfl, rfl⟩
                · rw [if_neg hl] at hstep
                  cases hstep
                  exact ⟨rfl, rfl⟩
        | false =>
            rw [if_neg (by simp)] at hstep
            cases hp : pyGet? m.commits (pos + (0 : Nat)) with
            | none =>
                rw [hp] at hstep
                cases hstep
                exact ⟨rfl, rfl⟩
            | some c =>
                rw [hp] at hstep
                dsimp only at hstep
                by_cases hd : c ∈ m.deleted_commits
                · rw [if_pos hd] at hstep
                  cases hstep
                  exact ⟨rfl, rfl⟩
                · rw [if_neg hd] at hstep
                  rw [if_pos rfl] at hstep
                  cases hstep
                  exact ⟨rfl, rfl⟩
      cases e with
      | none =>
          dsimp only
          unfold remove_rows_loop
          exact hm1
      | some err =>
          dsimp only
          exact hm1

theorem undelete_commit_preserves (m : Model) (c : Commit)
    (mods : Option (List (Field × Value))) :
    (undelete_commit m c mods).1.history = m.history ∧
    (undelete_commit m c mods).1.last_history_event = m.last_history_event := by
  unfold undelete_commit
  by_cases hd : c ∈ m.deleted_commits
  · rw [if_pos hd]
    cases mods with
    | none => exact ⟨rfl, rfl⟩
    | some fm =>
        dsimp only
        by_cases hfm : fm ≠ []
        · rw [if_pos hfm]
          exact ⟨rfl, rfl⟩
        · rw [if_neg hfm]
          exact ⟨rfl, rfl⟩
  · rw [if_neg hd]
    exact ⟨rfl, rfl⟩

theorem set_new_branch_name_true_preserves (m : Model) (name : String) :
    (set_new_branch_name m name true).1.history = m.history ∧
    (set_new_branch_name m name true).1.last_history_event = m.last_history_event := by
  unfold set_new_branch_name set_new_branch_name_store
  rw [if_pos rfl]
  by_cases h1 : name.trim = m.old_branch_name
  · rw [if_pos h1]
    exact ⟨rfl, rfl⟩
  · rw [if_neg h1]
    by_cases h2 : (true = true ∧ name.trim = "")
    · rw [if_pos h2]
      exact ⟨rfl, rfl⟩
    · rw [if_neg h2]
      cases validate_branch_name m.check_ref_ok name.trim with
      | none => exact ⟨rfl, rfl⟩
      | some e => exact ⟨rfl, rfl⟩

theorem action_undo_preserves (m : Model) (a : Action) :
    (action_undo m a).1.history = m.history ∧
    (action_undo m a).1.last_history_event = m.last_history_event := by
  cases a with
  | insert pos c mods => exact remove_rows_single_preserves m pos true
  | set idx old new => exact set_data_true_preserves m idx old
  | remove pos c mods => exact undelete_commit_preserves m c mods
  | setBranchName o n => exact set_new_branch_name_true_preserves m o

theorem action_redo_preserves (m : Model) (a : Action) :
    (action_redo m a).1.history = m.history ∧
    (action_redo m a).1.last_history_event = m.last_history_event := by
  cases a with
  | insert pos c mods =>
      unfold action_redo insert_commit
      dsimp only
      by_cases hm : mods ≠ []
      · rw [if_pos hm]
        exact ⟨rfl, rfl⟩
      · rw [if_neg hm]
        exact ⟨rfl, rfl⟩
  | set idx old new => exact set_data_true_preserves m idx new
  | remove pos c mods => exact remove_rows_single_preserves m pos false
  | setBranchName o n => exact set_new_branch_name_true_preserves m n

theorem runActions_preserves (acts : List Action)
    (step : Model → Action → Model × Option PyError)
    (hstep : ∀ mm a, (step mm a).1.history = mm.history ∧
        (step mm a).1.last_history_event = mm.last_history_event)
    (m : Model) :
    (runActions acts step m).1.history = m.history ∧
    (runActions acts step m).1.last_history_event = m.last_history_event := by
  induction acts generalizing m with
  | nil => exact ⟨rfl, rfl⟩
  | cons a rest ih =>
      unfold runActions
      cases hs : step m a with
      | mk m1 e =>
          have h1 := hstep m a
          rw [hs] at h1
          cases e with
          | none =>
              dsimp only
              have h2 := ih m1
              exact ⟨h2.1.trans h1.1, h2.2.trans h1.2⟩
          | some err =>
              dsimp only
              exact h1


/-- C9: under the documented cursor invariant
`-1 ≤ history_cursor ≤ len(history) - 1`, the three history operations
preserve the invariant; `start_history_event` truncates every event after
the cursor, appends one empty event, and leaves the cursor at
`len(history) - 1`; and the cursor equals `-1` exactly when `undo_history`
has nothing to undo (it returns the model unchanged and raises nothing). -/
theorem claim_C9 (m : Model)
    (hinv : -1 ≤ m.last_history_event ∧
        m.last_history_event ≤ (m.history.length : Int) - 1) :
    ((start_history_event m).history =
        m.history.take (m.last_history_event + 1).toNat ++ [[]] ∧
     (start_history_event m).last_history_event = m.last_history_event + 1 ∧
     (start_history_event m).last_history_event =
        ((start_history_event m).history.length : Int) - 1 ∧
     -1 ≤ (start_history_event m).last_history_event ∧
     (start_history_event m).last_history_event ≤
        ((start_history_event m).history.length : Int) - 1) ∧
    (-1 ≤ (undo_history m).1.last_history_event ∧
     (undo_history m).1.last_history_event ≤
        (((undo_history m).1.history.length : Int)) - 1) ∧
    (-1 ≤ (redo_history m).1.last_history_event ∧
     (redo_history m).1.last_history_event ≤
        (((redo_history m).1.history.length : Int)) - 1) ∧
    (undo_history m = (m, Option.none) ↔ m.last_history_event = -1) := by
  have hlen : (m.history.take (m.last_history_event + 1).toNat).length =
      (m.last_history_event + 1).toNat := by
    rw [List.length_take]
    apply min_eq_left
    omega
  have hstart : (start_history_event m).last_history_event =
      ((start_history_event m).history.length : Int) - 1 := by
    have h2 : (start_history_event m).history.length =
        (m.last_history_event + 1).toNat + 1 := by
      show (m.history.take (m.last_history_event + 1).toNat ++ [[]]).length = _
      rw [List.length_append, hlen]
      rfl
    have h3 : (start_history_event m).last_history_event =
        m.last_history_event + 1 := rfl
    rw [h2, h3]
    omega
  have hundo : -1 ≤ (undo_history m).1.last_history_event ∧
      (undo_history m).1.last_history_event ≤
        (((undo_history m).1.history.length : Int)) - 1 := by
    unfold undo_history
    by_cases h0 : 0 ≤ m.last_history_event
    · rw [if_pos h0]
      cases hg : pyGet? m.history m.last_history_event with
      | none =>
          dsimp only
          exact hinv
      | some ev =>
          dsimp only
          cases hr : runActions ev.reverse action_undo m with
          | mk m1 e =>
              have hp := runActions_preserves ev.reverse action_undo
                (fun mm a => action_undo_preserves mm a) m
              rw [hr] at hp
              cases e with
              | some err =>
                  dsimp only
                  rw [hp.1, hp.2]
                  exact hinv
              | none =>
                  dsimp only
                  rw [hp.1, hp.2]
                  refine ⟨by omega, by omega⟩
    · rw [if_neg h0]
      exact hinv
  have hredo : -1 ≤ (redo_history m).1.last_history_event ∧
      (redo_history m).1.last_history_event ≤
        (((redo_history m).1.history.length : Int)) - 1 := by
    unfold redo_history
    by_cases hlt : m.last_history_event < (m.history.length : Int) - 1
    · rw [if_pos hlt]
      dsimp only
      cases hg : pyGet? m.history (m.last_history_event + 1) with
      | none =>
          dsimp only
          refine ⟨by omega, by omega⟩
      | some ev =>
          dsimp only
          cases hr : runActions ev action_redo
              { m with last_history_event := m.last_history_event + 1 } with
          | mk m1 e =>
              have hp := runActions_preserves ev action_redo
                (fun mm a => action_redo_preserves mm a)
                { m with last_history_event := m.last_history_event + 1 }
              rw [hr] at hp
              have hp1 : m1.history = m.history := hp.1
              have hp2 : m1.last_history_event = m.last_history_event + 1 := hp.2
              cases e with
              | some err =>
                  dsimp only
                  rw [hp1, hp2]
                  refine ⟨by omega, by omega⟩
              | none =>
                  dsimp only
                  rw [hp1, hp2]
                  refine ⟨by omega, by omega⟩
    · rw [if_neg hlt]
      exact hinv
  have hiff : undo_history m = (m, Option.none) ↔ m.last_history_event = -1 := by
    constructor
    · intro heq
      by_contra hne
      have h0 : 0 ≤ m.last_history_event := by omega
      unfold undo_history at heq
      rw [if_pos h0] at heq
      cases hg : pyGet? m.history m.last_history_event with
      | none =>
          rw [hg] at heq
          dsimp only at heq
          simp at heq
      | some ev =>
          rw [hg] at heq
          dsimp only at heq
          cases hr : runActions ev.reverse action_undo m with
          | mk m1 e =>
              have hp := runActions_preserves ev.reverse action_undo
                (fun mm a => action_undo_preserves mm a) m
              rw [hr] at hp
              rw [hr] at heq
              cases e with
              | some err => simp at heq
              | none =>
                  dsimp only at heq
                  have hx := congrArg (fun p => p.1.last_history_event) heq
                  dsimp only at hx
                  rw [hp.2] at hx
                  omega
    · intro h
      unfold undo_history
      rw [if_neg (by omega : ¬ 0 ≤ m.last_history_event)]
  exact ⟨⟨rfl, rfl, hstart, by omega, by rw [hstart]⟩, hundo, hredo, hiff⟩

theorem claim_C9_witness :
    (-1 ≤ exModel.last_history_event ∧
        exModel.last_history_event ≤ (exModel.history.length : Int) - 1) ∧
    (undo_history exModel = (exModel, Option.none) ↔
        exModel.last_history_event = -1) :=
  ⟨by decide, (claim_C9 exModel (by decide)).2.2.2⟩


theorem lookupMod_elim {m : Model} {c : Commit} {f : Field} {v : Value}
    (h : lookupMod m c f = some v) :
    ∃ fm, lookupA m.modifications c = some fm ∧ lookupA fm f = some v := by
  unfold lookupMod at h
  cases hl : lookupA m.modifications c with
  | none =>
      rw [hl] at h
      simp at h
  | some fm =>
      rw [hl] at h
      simp at h
      exact ⟨fm, rfl, h⟩

/-- The layered read returns the overlay entry whenever one is present:
either the entry differs from the original and `modified_data` returns it,
or it coincides with the original and `orig_data` returns the same value. -/
theorem data_eq_of_overlay (m : Model) (idx : Index) (c : Commit) (f : Field) (v : Value)
    (hc : pyGet? m.commits idx.row = some c)
    (hcol : m.columns.get? idx.column = some f)
    (hov : lookupMod m c f = some v) :
    data m idx = v := by
  obtain ⟨fm, hfm, hv⟩ := lookupMod_elim hov
  have hmd : modified_data m idx = v := by
    unfold modified_data
    rw [hc, hcol]
    dsimp only
    rw [hfm]
    dsimp only
    rw [hv]
  by_cases hdum : c.isDummy
  · have him : is_modified m idx = true := by
      unfold is_modified
      rw [hc, hcol]
      dsimp only
      rw [if_pos hdum]
    unfold data
    rw [him, hmd]
    rfl
  · by_cases hor : v = orig_data m idx
    · by_cases him : is_modified m idx = true
      · unfold data
        rw [him, hmd]
        rfl
      · unfold data
        rw [Bool.not_eq_true] at him
        rw [him]
        simp only [Bool.false_eq_true, if_false]
        exact hor.symm
    · have him : is_modified m idx = true := by
        unfold is_modified
        rw [hc, hcol]
        dsimp only
        rw [if_neg hdum, hfm]
        dsimp only
        rw [hv]
        simp [hor]
      unfold data
      rw [him, hmd]
      rfl

/-- Without an overlay entry a non-dummy commit reads its original value. -/
theorem data_eq_orig_of_no_overlay (m : Model) (idx : Index) (c : Commit) (f : Field)
    (hc : pyGet? m.commits idx.row = some c)
    (hcol : m.columns.get? idx.column = some f)
    (hdum : c.isDummy = false)
    (hov : lookupMod m c f = Option.none) :
    data m idx = orig_data m idx := by
  have him : is_modified m idx = false := by
    unfold is_modified
    rw [hc, hcol]
    dsimp only
    rw [if_neg (by rw [hdum]; exact Bool.false_ne_true)]
    unfold lookupMod at hov
    cases hl : lookupA m.modifications c with
    | none => rfl
    | some fm =>
        rw [hl] at hov
        simp at hov
        dsimp only
        rw [hov]
  unfold data
  rw [him]
  simp

theorem lookupMod_set_field_self (m : Model) (c : Commit) (f : Field) (v : Value) :
    lookupMod (set_field_data m c f v) c f = some v := by
  unfold lookupMod set_field_data
  dsimp only
  rw [lookupA_updateA_self]
  simp [lookupA_updateA_self]

theorem lookupMod_set_field_ne (m : Model) (c : Commit) (f : Field) (v : Value)
    (c' : Commit) (f' : Field) (h : c' ≠ c ∨ f' ≠ f) :
    lookupMod (set_field_data m c f v) c' f' = lookupMod m c' f' := by
  unfold lookupMod set_field_data
  dsimp only
  rcases h with hcne | hfne
  · rw [lookupA_updateA_ne _ _ _ _ (Ne.symm hcne)]
  · by_cases hcc : c' = c
    · subst hcc
      rw [lookupA_updateA_self]
      cases hl : lookupA m.modifications c' with
      | none =>
          simp only [hl, Option.getD_none, Option.bind_none, Option.some_bind]
          rw [lookupA_updateA_ne _ _ _ _ (Ne.symm hfne)]
          rfl
      | some fm =>
          simp only [hl, Option.getD_some, Option.some_bind]
          rw [lookupA_updateA_ne _ _ _ _ (Ne.symm hfne)]
    · rw [lookupA_updateA_ne _ _ _ _ (Ne.symm hcc)]

theorem lookupMod_merge_propagate_self (m : Model) (c : Commit) (f : Field) (v : Value)
    (c' : Commit) :
    lookupMod (merge_propagate m c f v) c' f = lookupMod m c' f := by
  rw [merge_propagate_eq]
  by_cases hm : m.merge
  · rw [if_pos hm]
    cases hp : pairedField f with
    | none => rfl
    | some g =>
        exact lookupMod_set_field_ne m c g v c' f (Or.inr (Ne.symm (pairedField_ne hp)))
  · rw [if_neg hm]

theorem lookupMod_history_update (m : Model) (h : List (List Action)) (c : Commit)
    (f : Field) : lookupMod { m with history := h } c f = lookupMod m c f := rfl


theorem pyGet?_pySet_self_nonneg (l : List α) (i : Int) (x : α)
    (h0 : 0 ≤ i) (hlt : i < (l.length : Int)) :
    pyGet? (pySet l i x) i = some x := by
  unfold pyGet? pySet
  rw [if_pos h0, if_pos h0]
  have hlt' : i.toNat < l.length := (Int.toNat_lt h0).mpr hlt
  rw [List.get?_set_eq, List.get?_eq_get hlt']
  rfl

/-- `set_data` in the written case (`reference != value`), with the history
action recorded: the resulting state and the absence of a raise. -/
theorem set_data_write (m : Model) (idx : Index) (v : Value) (c : Commit) (f : Field)
    (r : Value) (ev : List Action)
    (hrow : 0 ≤ idx.row ∧ idx.row < (m.commits.length : Int))
    (hc : pyGet? m.commits idx.row = some c)
    (hcol : m.columns.get? idx.column = some f)
    (href : set_reference m idx f = Except.ok r)
    (hne : r ≠ v)
    (hev : pyGet? m.history m.last_history_event = some ev) :
    set_data m idx v false =
      (merge_propagate
        { set_field_data m c f v with
            history := pySet m.history m.last_history_event
              (ev ++ [Action.set idx r v]) }
        c f v, Option.none) := by
  unfold set_data
  rw [if_neg (not_not_intro hrow), hc]
  dsimp only
  rw [hcol]
  dsimp only
  rw [href]
  dsimp only
  rw [if_pos (Or.inr hne)]
  have hh : pyGet? (set_field_data m c f v).history
      (set_field_data m c f v).last_history_event = some ev := hev
  rw [hh]
  rfl

/-- `set_data` in the written case with `ignore_history`. -/
theorem set_data_write_true (m : Model) (idx : Index) (v : Value) (c : Commit)
    (f : Field) (r : Value)
    (hrow : 0 ≤ idx.row ∧ idx.row < (m.commits.length : Int))
    (hc : pyGet? m.commits idx.row = some c)
    (hcol : m.columns.get? idx.column = some f)
    (href : set_reference m idx f = Except.ok r)
    (hne : r ≠ v) :
    set_data m idx v true =
      (merge_propagate (set_field_data m c f v) c f v, Option.none) := by
  unfold set_data
  rw [if_neg (not_not_intro hrow), hc]
  dsimp only
  rw [hcol]
  dsimp only
  rw [href]
  dsimp only
  rw [if_pos (Or.inr hne)]
  rfl

/-- `set_data` when the reference equals the value: no mutation, no raise. -/
theorem set_data_nowrite (m : Model) (idx : Index) (v : Value) (c : Commit) (f : Field)
    (ig : Bool)
    (hrow : 0 ≤ idx.row ∧ idx.row < (m.commits.length : Int))
    (hc : pyGet? m.commits idx.row = some c)
    (hcol : m.columns.get? idx.column = some f)
    (href : set_reference m idx f = Except.ok v) :
    set_data m idx v ig = (m, Option.none) := by
  unfold set_data
  rw [if_neg (not_not_intro hrow), hc]
  dsimp only
  rw [hcol]
  dsimp only
  rw [href]
  dsimp only
  rw [if_neg (by simp)]


/-- After the written branch of `set_data`, the layered read at the written
index returns the assigned value (whatever the merge propagation added). -/
theorem data_after_set_write (m : Model) (idx : Index) (v : Value) (c : Commit)
    (f : Field) (H : List (List Action))
    (hc : pyGet? m.commits idx.row = some c)
    (hcol : m.columns.get? idx.column = some f) :
    data (merge_propagate { set_field_data m c f v with history := H } c f v) idx = v := by
  apply data_eq_of_overlay _ _ c f v
  · rw [merge_propagate_commits]
    exact hc
  · rw [merge_propagate_columns]
    exact hcol
  · rw [lookupMod_merge_propagate_self]
    rw [lookupMod_history_update (set_field_data m c f v) H c f]
    exact lookupMod_set_field_self m c f v

/-- The current event of the state produced by the written branch of
`set_data` is exactly the list written into the history slot. -/
theorem eventAt_write (m : Model) (c : Commit) (f : Field) (v : Value)
    (acts : List Action)
    (h0 : 0 ≤ m.last_history_event)
    (hlt : m.last_history_event < (m.history.length : Int)) :
    eventAt (merge_propagate
      { set_field_data m c f v with
          history := pySet m.history m.last_history_event acts } c f v) = acts := by
  unfold eventAt
  rw [merge_propagate_history, merge_propagate_last]
  show (pyGet? (pySet m.history m.last_history_event acts)
      m.last_history_event).getD [] = acts
  rw [pyGet?_pySet_self_nonneg _ _ _ h0 hlt]
  rfl

/-- C3 (amended): with a current history event in place, for a non-time
column `set_data(idx, v)` with `data(idx) != v` makes `data(idx)` read `v`
and appends exactly one `Set` action to the current event (none under
`ignore_history`), and `set_data` with `data(idx) == v` is a no-op; for a
*time* column the source compares `v` against the bare epoch component of
`data(idx)` (`reference, tz = self.data(index)`), so the write and the
single action occur exactly when the epoch differs from `v` as a whole. -/
theorem claim_C3 (m : Model) (idx : Index) (v : Value) (c : Commit) (f : Field)
    (hrow : 0 ≤ idx.row ∧ idx.row < (m.commits.length : Int))
    (hc : pyGet? m.commits idx.row = some c)
    (hcol : m.columns.get? idx.column = some f)
    (hhist : 0 ≤ m.last_history_event ∧
        m.last_history_event < (m.history.length : Int)) :
    (f ∉ TIME_FIELDS → data m idx ≠ v →
        (set_data m idx v false).2 = Option.none ∧
        data (set_data m idx v false).1 idx = v ∧
        eventAt (set_data m idx v false).1 =
          eventAt m ++ [Action.set idx (data m idx) v] ∧
        (set_data m idx v true).1.history = m.history) ∧
    (f ∉ TIME_FIELDS → data m idx = v →
        set_data m idx v false = (m, Option.none)) ∧
    (∀ e tz, f ∈ TIME_FIELDS → data m idx = Value.time e tz →
        (Value.int e ≠ v →
            (set_data m idx v false).2 = Option.none ∧
            data (set_data m idx v false).1 idx = v ∧
            eventAt (set_data m idx v false).1 =
              eventAt m ++ [Action.set idx (Value.int e) v]) ∧
        (Value.int e = v →
            set_data m idx v false = (m, Option.none))) := by
  obtain ⟨ev, hev⟩ := pyGet?_exists_of_bounds hhist.1 hhist.2
  have hevAt : eventAt m = ev := by
    unfold eventAt
    rw [hev]
    rfl
  refine ⟨?_, ?_, ?_⟩
  · intro hnt hne
    have href := @set_reference_nontime m idx f hnt
    have hw := set_data_write m idx v c f (data m idx) ev hrow hc hcol href hne hev
    rw [hw]
    refine ⟨rfl, data_after_set_write m idx v c f _ hc hcol, ?_, ?_⟩
    · rw [eventAt_write m c f v _ hhist.1 hhist.2, hevAt]
    · have hwt := set_data_write_true m idx v c f (data m idx) hrow hc hcol href hne
      rw [hwt]
      show (merge_propagate (set_field_data m c f v) c f v).history = m.history
      rw [merge_propagate_history]
      rfl
  · intro hnt heq
    have href := @set_reference_nontime m idx f hnt
    rw [heq] at href
    exact set_data_nowrite m idx v c f false hrow hc hcol href
  · intro e tz htf hd
    have href := set_reference_time htf hd
    constructor
    · intro hne
      have hw := set_data_write m idx v c f (Value.int e) ev hrow hc hcol href hne hev
      rw [hw]
      refine ⟨rfl, data_after_set_write m idx v c f _ hc hcol, ?_⟩
      rw [eventAt_write m c f v _ hhist.1 hhist.2, hevAt]
    · intro heq
      rw [heq] at href
      exact set_data_nowrite m idx v c f false hrow hc hcol href

/-- C3, counterexample to the claim as stated: on the `authored_date`
column of a freshly started event, `set_data` with a value *equal* to
`data(idx)` (the pair `(1000, "+0100")`) still writes the overlay and
appends a `Set` action, because the code compares the pair against the
bare epoch `1000` — so "if data(idx) == v, no overlay write and no history
action occurs" is false on the code. -/
theorem claim_C3_counterexample :
    data (start_history_event exModel) ⟨0, 1⟩ = Value.time 1000 "+0100" ∧
    (set_data (start_history_event exModel) ⟨0, 1⟩ (Value.time 1000 "+0100") false).2 =
      Option.none ∧
    lookupMod (set_data (start_history_event exModel) ⟨0, 1⟩
        (Value.time 1000 "+0100") false).1 (Commit.real 0) Field.authored_date =
      some (Value.time 1000 "+0100") ∧
    eventAt (set_data (start_history_event exModel) ⟨0, 1⟩
        (Value.time 1000 "+0100") false).1 =
      [Action.set ⟨0, 1⟩ (Value.int 1000) (Value.time 1000 "+0100")] := by
  refine ⟨by decide, by decide, by decide, by decide⟩

theorem claim_C3_witness :
    Field.author_name ∉ TIME_FIELDS ∧
    data (start_history_event exModel) ⟨0, 3⟩ ≠ Value.str "X" ∧
    (set_data (start_history_event exModel) ⟨0, 3⟩ (Value.str "X") false).2 =
      Option.none ∧
    data (set_data (start_history_event exModel) ⟨0, 3⟩ (Value.str "X") false).1
      ⟨0, 3⟩ = Value.str "X" ∧
    eventAt (set_data (start_history_event exModel) ⟨0, 3⟩ (Value.str "X") false).1 =
      eventAt (start_history_event exModel) ++
        [Action.set ⟨0, 3⟩ (data (start_history_event exModel) ⟨0, 3⟩) (Value.str "X")] := by
  have h := (claim_C3 (start_history_event exModel) ⟨0, 3⟩ (Value.str "X")
    (Commit.real 0) Field.author_name (by decide) (by decide) (by decide)
    (by decide)).1 (by decide) (by decide)
  exact ⟨by decide, by decide, h.1, h.2.1, h.2.2.1⟩

theorem lookupMod_merge_propagate_paired (m : Model) (c : Commit) (f g : Field)
    (v : Value) (hm : m.merge = true) (hpair : pairedField f = some g) :
    lookupMod (merge_propagate m c f v) c g = some v := by
  rw [merge_propagate_eq, if_pos hm, hpair]
  exact lookupMod_set_field_self m c g v

theorem lookupMod_merge_propagate_off (m : Model) (c : Commit) (f : Field) (v : Value)
    (c' : Commit) (g : Field) (hm : m.merge = false) :
    lookupMod (merge_propagate m c f v) c' g = lookupMod m c' g := by
  rw [merge_propagate_eq, if_neg (by rw [hm]; exact Bool.false_ne_true)]

/-- C4: when the guard of `set_data` passes (the computed reference differs
from the value) on one of the six paired fields, merge mode also writes the
same value to the paired field of the same commit (readable through `data`)
while the current event still receives exactly the one `Set` action; with
merge mode off the paired field's overlay entry is untouched. -/
theorem claim_C4 (m : Model) (idx : Index) (v : Value) (c : Commit) (f g : Field)
    (j : Nat) (r : Value)
    (hrow : 0 ≤ idx.row ∧ idx.row < (m.commits.length : Int))
    (hc : pyGet? m.commits idx.row = some c)
    (hcol : m.columns.get? idx.column = some f)
    (hpair : pairedField f = some g)
    (hcolg : m.columns.get? j = some g)
    (hhist : 0 ≤ m.last_history_event ∧
        m.last_history_event < (m.history.length : Int))
    (href : set_reference m idx f = Except.ok r)
    (hne : r ≠ v) :
    (m.merge = true →
        (set_data m idx v false).2 = Option.none ∧
        lookupMod (set_data m idx v false).1 c g = some v ∧
        data (set_data m idx v false).1 ⟨idx.row, j⟩ = v ∧
        eventAt (set_data m idx v false).1 = eventAt m ++ [Action.set idx r v]) ∧
    (m.merge = false →
        (set_data m idx v false).2 = Option.none ∧
        lookupMod (set_data m idx v false).1 c g = lookupMod m c g ∧
        eventAt (set_data m idx v false).1 = eventAt m ++ [Action.set idx r v]) := by
  obtain ⟨ev, hev⟩ := pyGet?_exists_of_bounds hhist.1 hhist.2
  have hevAt : eventAt m = ev := by
    unfold eventAt
    rw [hev]
    rfl
  have hw := set_data_write m idx v c f r ev hrow hc hcol href hne hev
  have hgf : g ≠ f := pairedField_ne hpair
  constructor
  · intro hm
    rw [hw]
    have hlg : lookupMod (merge_propagate
        { set_field_data m c f v with
            history := pySet m.history m.last_history_event
              (ev ++ [Action.set idx r v]) } c f v) c g = some v :=
      lookupMod_merge_propagate_paired _ c f g v hm hpair
    refine ⟨rfl, hlg, ?_, ?_⟩
    · apply data_eq_of_overlay _ _ c g v
      · rw [merge_propagate_commits]
        exact hc
      · rw [merge_propagate_columns]
        exact hcolg
      · exact hlg
    · rw [eventAt_write m c f v _ hhist.1 hhist.2, hevAt]
  · intro hm
    rw [hw]
    refine ⟨rfl, ?_, ?_⟩
    · have hoff := lookupMod_merge_propagate_off
        { set_field_data m c f v with
            history := pySet m.history m.last_history_event
              (ev ++ [Action.set idx r v]) } c f v c g hm
      rw [hoff]
      rw [lookupMod_history_update (set_field_data m c f v) _ c g]
      exact lookupMod_set_field_ne m c f v c g (Or.inr hgf)
    · rw [eventAt_write m c f v _ hhist.1 hhist.2, hevAt]

theorem claim_C4_witness :
    ({ start_history_event exModel with merge := true }.merge = true →
        (set_data { start_history_event exModel with merge := true } ⟨0, 2⟩
            (Value.time 7777 "+0000") false).2 = Option.none ∧
        lookupMod (set_data { start_history_event exModel with merge := true } ⟨0, 2⟩
            (Value.time 7777 "+0000") false).1 (Commit.real 0) Field.authored_date =
          some (Value.time 7777 "+0000") ∧
        data (set_data { start_history_event exModel with merge := true } ⟨0, 2⟩
            (Value.time 7777 "+0000") false).1 ⟨0, 1⟩ = Value.time 7777 "+0000" ∧
        eventAt (set_data { start_history_event exModel with merge := true } ⟨0, 2⟩
            (Value.time 7777 "+0000") false).1 =
          eventAt { start_history_event exModel with merge := true } ++
            [Action.set ⟨0, 2⟩ (Value.int 1500) (Value.time 7777 "+0000")]) ∧
    ({ start_history_event exModel with merge := true }.merge = false →
        (set_data { start_history_event exModel with merge := true } ⟨0, 2⟩
            (Value.time 7777 "+0000") false).2 = Option.none ∧
        lookupMod (set_data { start_history_event exModel with merge := true } ⟨0, 2⟩
            (Value.time 7777 "+0000") false).1 (Commit.real 0) Field.authored_date =
          lookupMod { start_history_event exModel with merge := true }
            (Commit.real 0) Field.authored_date ∧
        eventAt (set_data { start_history_event exModel with merge := true } ⟨0, 2⟩
            (Value.time 7777 "+0000") false).1 =
          eventAt { start_history_event exModel with merge := true } ++
            [Action.set ⟨0, 2⟩ (Value.int 1500) (Value.time 7777 "+0000")]) :=
  claim_C4 { start_history_event exModel with merge := true } ⟨0, 2⟩
    (Value.time 7777 "+0000") (Commit.real 0) Field.committed_date
    Field.authored_date 1 (Value.int 1500) (by decide) (by decide) (by decide)
    (by decide) (by decide) (by decide) rfl (by decide)

/-- C5: the layered read returns the overlay entry when one is present for
the commit and field, and the underlying commit field otherwise (non-dummy
commits — a `DummyCommit` has no underlying fields); and through
`GitModel.data`, replacing only the epoch seconds of a time field reads
back as the new epoch paired with the commit's original timezone. -/
theorem claim_C5 (m : Model) (idx : Index) (c : Commit) (f : Field)
    (hc : pyGet? m.commits idx.row = some c)
    (hcol : m.columns.get? idx.column = some f) :
    (∀ v, lookupMod m c f = some v → data m idx = v) ∧
    (c.isDummy = false → lookupMod m c f = Option.none →
        data m idx = orig_data m idx) ∧
    (∀ e id, c = Commit.real id → m.show_mods = true →
        f = Field.authored_date →
        lookupMod m c Field.authored_date = some (Value.int e) →
        gitmodel_data m idx = Value.time e ((m.base id).author_tz)) ∧
    (∀ e id, c = Commit.real id → m.show_mods = true →
        f = Field.committed_date →
        lookupMod m c Field.committed_date = some (Value.int e) →
        gitmodel_data m idx = Value.time e ((m.base id).committer_tz)) := by
  refine ⟨?_, ?_, ?_, ?_⟩
  · intro v hov
    exact data_eq_of_overlay m idx c f v hc hcol hov
  · intro hdum hov
    exact data_eq_orig_of_no_overlay m idx c f hc hcol hdum hov
  · intro e id hcr hsm hf hov
    subst hcr
    subst hf
    obtain ⟨fm, hfm, hv⟩ := lookupMod_elim hov
    have hgm : gitmodel_is_modified m idx = true := by
      unfold gitmodel_is_modified
      rw [hc, hcol]
      dsimp only
      rw [hfm]
      simp [hv]
    unfold gitmodel_data
    rw [hc, hcol]
    dsimp only
    rw [hsm, hgm]
    rw [hfm]
    simp [hv, TIME_FIELDS]
  · intro e id hcr hsm hf hov
    subst hcr
    subst hf
    obtain ⟨fm, hfm, hv⟩ := lookupMod_elim hov
    have hgm : gitmodel_is_modified m idx = true := by
      unfold gitmodel_is_modified
      rw [hc, hcol]
      dsimp only
      rw [hfm]
      simp [hv]
    unfold gitmodel_data
    rw [hc, hcol]
    dsimp only
    rw [hsm, hgm]
    rw [hfm]
    simp [hv, TIME_FIELDS]

theorem claim_C5_witness :
    data { exModel with modifications :=
        [(Commit.real 0, [(Field.authored_date, Value.int 4242)])] } ⟨0, 1⟩ =
      Value.int 4242 ∧
    data { exModel with modifications :=
        [(Commit.real 0, [(Field.authored_date, Value.int 4242)])] } ⟨0, 2⟩ =
      orig_data { exModel with modifications :=
        [(Commit.real 0, [(Field.authored_date, Value.int 4242)])] } ⟨0, 2⟩ ∧
    gitmodel_data { exModel with modifications :=
        [(Commit.real 0, [(Field.authored_date, Value.int 4242)])] } ⟨0, 1⟩ =
      Value.time 4242 "+0100" := by
  have h1 := claim_C5 { exModel with modifications :=
      [(Commit.real 0, [(Field.authored_date, Value.int 4242)])] } ⟨0, 1⟩
    (Commit.real 0) Field.authored_date (by decide) (by decide)
  have h2 := claim_C5 { exModel with modifications :=
      [(Commit.real 0, [(Field.authored_date, Value.int 4242)])] } ⟨0, 2⟩
    (Commit.real 0) Field.committed_date (by decide) (by decide)
  refine ⟨h1.1 (Value.int 4242) (by decide), h2.2.1 (by decide) (by decide), ?_⟩
  have h3 := h1.2.2.1 4242 0 rfl (by decide) rfl (by decide)
  exact h3


/-- The assignment loop of `reorder_commits` leaves the overlay of commits
outside the processed list untouched. -/
theorem reorder_fold_untouched (tl : Timelapse) (cs : List Commit) (ds : List Nat)
    (mm : Model) (c : Commit) (f : Field) (hc : c ∉ cs) :
    lookupMod ((cs.zip ds).foldl
      (fun mm cd =>
        let t := tl.instant cd.2
        set_field_data (set_field_data mm cd.1 Field.authored_date (Value.int t))
          cd.1 Field.committed_date (Value.int t)) mm) c f = lookupMod mm c f := by
  induction cs generalizing ds mm with
  | nil => rfl
  | cons c0 cs' ih =>
      cases ds with
      | nil => rfl
      | cons d0 ds' =>
          rw [List.zip_cons_cons, List.foldl_cons]
          have hc0 : c ≠ c0 := fun h => hc (h ▸ List.mem_cons_self c0 cs')
          have hcs : c ∉ cs' := fun h => hc (List.mem_cons_of_mem c0 h)
          rw [ih ds' _ hcs]
          dsimp only
          rw [lookupMod_set_field_ne _ _ _ _ _ _ (Or.inl hc0)]
          rw [lookupMod_set_field_ne _ _ _ _ _ _ (Or.inl hc0)]

/-- The k-th commit of the assignment loop receives the k-th draw, on both
time fields. -/
theorem reorder_fold_get (tl : Timelapse) (cs : List Commit) (ds : List Nat)
    (mm : Model) (k : Nat) (c : Commit) (d : Nat)
    (hnd : cs.Nodup) (hck : cs.get? k = some c) (hdk : ds.get? k = some d) :
    lookupMod ((cs.zip ds).foldl
      (fun mm cd =>
        let t := tl.instant cd.2
        set_field_data (set_field_data mm cd.1 Field.authored_date (Value.int t))
          cd.1 Field.committed_date (Value.int t)) mm) c Field.authored_date =
        some (Value.int (tl.instant d)) ∧
    lookupMod ((cs.zip ds).foldl
      (fun mm cd =>
        let t := tl.instant cd.2
        set_field_data (set_field_data mm cd.1 Field.authored_date (Value.int t))
          cd.1 Field.committed_date (Value.int t)) mm) c Field.committed_date =
        some (Value.int (tl.instant d)) := by
  induction k generalizing cs ds mm with
  | zero =>
      cases cs with
      | nil => simp at hck
      | cons c0 cs' =>
          cases ds with
          | nil => simp at hdk
          | cons d0 ds' =>
              simp only [List.get?] at hck hdk
              cases hck
              cases hdk
              rw [List.zip_cons_cons, List.foldl_cons]
              have hcs : c ∉ cs' := (List.nodup_cons.mp hnd).1
              constructor
              · rw [reorder_fold_untouched tl cs' ds' _ c Field.authored_date hcs]
                dsimp only
                rw [lookupMod_set_field_ne _ _ _ _ _ _ (Or.inr (by decide))]
                exact lookupMod_set_field_self _ c Field.authored_date _
              · rw [reorder_fold_untouched tl cs' ds' _ c Field.committed_date hcs]
                dsimp only
                exact lookupMod_set_field_self _ c Field.committed_date _
  | succ k ih =>
      cases cs with
      | nil => simp at hck
      | cons c0 cs' =>
          cases ds with
          | nil => simp at hdk
          | cons d0 ds' =>
              simp only [List.get?] at hck hdk
              rw [List.zip_cons_cons, List.foldl_cons]
              exact ih cs' ds' _ (List.nodup_cons.mp hnd).2 hck hdk

/-- C7: after `reorder_commits` every commit's `authored_date` and
`committed_date` overlay entries hold the same value; the sorted draw list
maps (by the monotone `datetime_from_seconds`) to a nondecreasing sequence
of assigned timestamps; and the k-th commit in row order receives the k-th
sorted draw on both fields, so the assigned timestamps taken in row order
are exactly that nondecreasing sequence. -/
theorem claim_C7 (m : Model) (tl : Timelapse) (draws : List Nat)
    (hlen : draws.length = m.commits.length)
    (hlt : ∀ d ∈ draws, d < tl.total_seconds)
    (hmono : ∀ a b, a ≤ b → b < tl.total_seconds → tl.instant a ≤ tl.instant b)
    (hnodup : m.commits.Nodup) :
    (∀ c ∈ m.commits, ∃ t,
        lookupMod (reorder_commits m tl draws) c Field.authored_date =
          some (Value.int t) ∧
        lookupMod (reorder_commits m tl draws) c Field.committed_date =
          some (Value.int t)) ∧
    List.Pairwise (· ≤ ·) ((draws.mergeSort (· ≤ ·)).map tl.instant) ∧
    (∀ k, k < m.commits.length →
        ∃ c d, m.commits.get? k = some c ∧
          (draws.mergeSort (· ≤ ·)).get? k = some d ∧
          lookupMod (reorder_commits m tl draws) c Field.authored_date =
            some (Value.int (tl.instant d)) ∧
          lookupMod (reorder_commits m tl draws) c Field.committed_date =
            some (Value.int (tl.instant d))) := by
  have hperm := List.mergeSort_perm draws (fun a b => decide (a ≤ b))
  have hslen : (draws.mergeSort (· ≤ ·)).length = m.commits.length := by
    rw [hperm.length_eq]
    exact hlen
  have hpart3 : ∀ k, k < m.commits.length →
      ∃ c d, m.commits.get? k = some c ∧
        (draws.mergeSort (· ≤ ·)).get? k = some d ∧
        lookupMod (reorder_commits m tl draws) c Field.authored_date =
          some (Value.int (tl.instant d)) ∧
        lookupMod (reorder_commits m tl draws) c Field.committed_date =
          some (Value.int (tl.instant d)) := by
    intro k hk
    obtain ⟨c, hc⟩ := Option.isSome_iff_exists.mp
      (by rw [List.get?_eq_get hk]; rfl :
        (m.commits.get? k).isSome)
    obtain ⟨d, hd⟩ := Option.isSome_iff_exists.mp
      (by rw [List.get?_eq_get (by rw [hslen]; exact hk)]; rfl :
        ((draws.mergeSort (· ≤ ·)).get? k).isSome)
    refine ⟨c, d, hc, hd, ?_⟩
    exact reorder_fold_get tl m.commits (draws.mergeSort (· ≤ ·)) m k c d
      hnodup hc hd
  refine ⟨?_, ?_, hpart3⟩
  · intro c hcmem
    obtain ⟨k, hget⟩ := List.mem_iff_get.mp hcmem
    obtain ⟨c', d, hc', hd, h1, h2⟩ := hpart3 k.1 k.2
    have hcc : c' = c := by
      rw [List.get?_eq_get k.2] at hc'
      have hx := Option.some.inj hc'
      rw [← hget]
      exact hx.symm
    subst hcc
    exact ⟨tl.instant d, h1, h2⟩
  · have hsorted := @List.sorted_mergeSort Nat
      (fun x1 x2 : Nat => decide (x1 ≤ x2))
      (fun a b c : Nat => by
        intro hab hbc
        simp only [decide_eq_true_eq] at hab hbc ⊢
        omega)
      (fun a b : Nat => by
        simp only [decide_eq_true_eq, Bool.or_eq_true]
        omega)
      draws
    rw [List.pairwise_map]
    have hmem : ∀ x ∈ draws.mergeSort (· ≤ ·), x < tl.total_seconds := by
      intro x hx
      exact hlt x (hperm.mem_iff.mp hx)
    refine List.Pairwise.imp_of_mem ?_ hsorted
    intro a b ha hb hab
    have hab2 : a ≤ b := by simpa using hab
    exact hmono a b hab2 (hmem b hb)


theorem claim_C7_witness :
    (∀ c ∈ exModel.commits, ∃ t,
        lookupMod (reorder_commits exModel (Timelapse.mk 10 (fun k => (k : Int))) [3])
          c Field.authored_date = some (Value.int t) ∧
        lookupMod (reorder_commits exModel (Timelapse.mk 10 (fun k => (k : Int))) [3])
          c Field.committed_date = some (Value.int t)) ∧
    List.Pairwise (· ≤ ·)
      (([3].mergeSort (· ≤ ·)).map (Timelapse.mk 10 (fun k => (k : Int))).instant) ∧
    (∀ k, k < exModel.commits.length →
        ∃ c d, exModel.commits.get? k = some c ∧
          ([3].mergeSort (· ≤ ·)).get? k = some d ∧
          lookupMod (reorder_commits exModel (Timelapse.mk 10 (fun k => (k : Int))) [3])
            c Field.authored_date =
            some (Value.int ((Timelapse.mk 10 (fun k => (k : Int))).instant d)) ∧
          lookupMod (reorder_commits exModel (Timelapse.mk 10 (fun k => (k : Int))) [3])
            c Field.committed_date =
            some (Value.int ((Timelapse.mk 10 (fun k => (k : Int))).instant d))) :=
  claim_C7 exModel (Timelapse.mk 10 (fun k => (k : Int))) [3]
    (by decide) (by decide) (fun a b hab _ => by show (a : Int) ≤ (b : Int); exact_mod_cast hab) (by decide)


/-- One-step reachability through the (overlay) `parents` field. -/
def parentRel (m : Model) (a b : Commit) : Prop := b ∈ parentsOf m a

/-- Membership in one saturation round. -/
theorem mem_satStep_iff (m : Model) (cs : List Commit) (x : Commit) :
    x ∈ satStep m cs ↔ x ∈ cs ∨ ∃ y ∈ cs, x ∈ parentsOf m y := by
  unfold satStep
  rw [List.mem_append]
  constructor
  · rintro (hx | hx)
    · exact Or.inl hx
    · right
      have := List.mem_of_mem_filter hx
      rw [List.mem_dedup] at this
      exact List.mem_flatMap.mp this
  · rintro (hx | ⟨y, hy, hp⟩)
    · exact Or.inl hx
    · by_cases hin : x ∈ cs
      · exact Or.inl hin
      · right
        rw [List.mem_filter]
        refine ⟨?_, by simpa using hin⟩
        rw [List.mem_dedup]
        exact List.mem_flatMap.mpr ⟨y, hy, hp⟩

theorem subset_satStep (m : Model) (cs : List Commit) : cs ⊆ satStep m cs :=
  fun _ hx => List.mem_append_left _ hx

theorem subset_sat (m : Model) (n : Nat) (cs : List Commit) : cs ⊆ sat m n cs := by
  induction n generalizing cs with
  | zero => exact fun _ hx => hx
  | succ k ih => exact fun x hx => ih (satStep m cs) (subset_satStep m cs hx)

theorem sat_subset_of_closed (m : Model) (U : List Commit)
    (hU : ∀ c ∈ U, parentsOf m c ⊆ U) :
    ∀ n cs, cs ⊆ U → sat m n cs ⊆ U := by
  intro n
  induction n with
  | zero => exact fun cs h => h
  | succ k ih =>
      intro cs hcs
      apply ih
      intro x hx
      rcases (mem_satStep_iff m cs x).mp hx with h | ⟨y, hy, hp⟩
      · exact hcs h
      · exact hU y (hcs hy) hp

theorem sat_sound (m : Model) (c : Commit) :
    ∀ n cs, (∀ x ∈ cs, Relation.TransGen (parentRel m) c x) →
      ∀ x ∈ sat m n cs, Relation.TransGen (parentRel m) c x := by
  intro n
  induction n with
  | zero => exact fun cs h => h
  | succ k ih =>
      intro cs hcs
      apply ih
      intro x hx
      rcases (mem_satStep_iff m cs x).mp hx with h | ⟨y, hy, hp⟩
      · exact hcs x h
      · exact Relation.TransGen.tail (hcs y hy) hp

theorem sat_of_fix (m : Model) (cs : List Commit) (hfix : satStep m cs = cs) :
    ∀ n, sat m n cs = cs := by
  intro n
  induction n with
  | zero => rfl
  | succ k ih =>
      show sat m k (satStep m cs) = cs
      rw [hfix]
      exact ih

theorem closed_of_fix (m : Model) (cs : List Commit) (hfix : satStep m cs = cs) :
    ∀ x ∈ cs, parentsOf m x ⊆ cs := by
  intro x hx p hp
  have hnews : ((cs.flatMap (parentsOf m)).dedup.filter
      (fun z => decide (z ∉ cs))) = [] := by
    have := hfix
    unfold satStep at this
    exact List.append_right_eq_self.mp this
  by_contra hpc
  have hmem : p ∈ (cs.flatMap (parentsOf m)).dedup.filter
      (fun z => decide (z ∉ cs)) := by
    rw [List.mem_filter, List.mem_dedup]
    exact ⟨List.mem_flatMap.mpr ⟨x, hx, hp⟩, by simpa using hpc⟩
  rw [hnews] at hmem
  simp at hmem

theorem satStep_nodup (m : Model) (cs : List Commit) (h : cs.Nodup) :
    (satStep m cs).Nodup := by
  unfold satStep
  apply List.Nodup.append h
  · exact (List.nodup_dedup _).filter _
  · intro a ha hb
    have := List.of_mem_filter hb
    simp at this
    exact this ha

theorem satStep_grow (m : Model) (cs : List Commit) :
    satStep m cs = cs ∨ cs.toFinset.card < (satStep m cs).toFinset.card := by
  by_cases hnews : ((cs.flatMap (parentsOf m)).dedup.filter
      (fun z => decide (z ∉ cs))) = []
  · left
    unfold satStep
    rw [hnews]
    exact List.append_nil cs
  · right
    obtain ⟨p, hp⟩ := List.exists_mem_of_ne_nil _ hnews
    have hps : (satStep m cs).toFinset = cs.toFinset ∪
        ((cs.flatMap (parentsOf m)).dedup.filter
          (fun z => decide (z ∉ cs))).toFinset := by
      unfold satStep
      exact List.toFinset_append
    rw [hps]
    apply Finset.card_lt_card
    constructor
    · exact Finset.subset_union_left
    · intro hsub
      have hpin : p ∈ cs.toFinset := hsub (Finset.mem_union_right _
        (List.mem_toFinset.mpr hp))
      have hpout := List.of_mem_filter hp
      simp at hpout
      exact hpout (List.mem_toFinset.mp hpin)

theorem sat_fix_of_card (m : Model) (U : List Commit)
    (hU : ∀ c ∈ U, parentsOf m c ⊆ U) :
    ∀ n cs, cs ⊆ U → cs.Nodup → U.toFinset.card < n + cs.toFinset.card →
      satStep m (sat m n cs) = sat m n cs := by
  intro n
  induction n with
  | zero =>
      intro cs hcs hnd hcard
      exfalso
      have hle : cs.toFinset.card ≤ U.toFinset.card :=
        Finset.card_le_card (fun x hx =>
          List.mem_toFinset.mpr (hcs (List.mem_toFinset.mp hx)))
      omega
  | succ k ih =>
      intro cs hcs hnd hcard
      show satStep m (sat m k (satStep m cs)) = sat m k (satStep m cs)
      rcases satStep_grow m cs with hfix | hgrow
      · rw [hfix]
        rw [sat_of_fix m cs hfix k]
        exact hfix
      · apply ih
        · intro x hx
          rcases (mem_satStep_iff m cs x).mp hx with h | ⟨y, hy, hp⟩
          · exact hcs h
          · exact hU y (hcs hy) hp
        · exact satStep_nodup m cs hnd
        · omega

/-- On a graph whose edges stay inside `m.commits`, `all_parents` is closed
under taking parents. -/
theorem all_parents_closed (m : Model) (c : Commit)
    (hU : ∀ x ∈ m.commits, parentsOf m x ⊆ m.commits)
    (hc : c ∈ m.commits) :
    ∀ x ∈ all_parents m c, parentsOf m x ⊆ all_parents m c := by
  apply closed_of_fix
  apply sat_fix_of_card m m.commits hU
  · intro x hx
    exact hU c hc (List.mem_dedup.mp hx)
  · exact List.nodup_dedup _
  · have := List.toFinset_card_le m.commits
    omega

theorem mem_all_parents_of_parent (m : Model) (c p : Commit)
    (hp : p ∈ parentsOf m c) : p ∈ all_parents m c :=
  subset_sat m (m.commits.length + 1) ((parentsOf m c).dedup)
    (List.mem_dedup.mpr hp)

theorem all_parents_sound (m : Model) (c : Commit) :
    ∀ x ∈ all_parents m c, Relation.TransGen (parentRel m) c x := by
  apply sat_sound
  intro x hx
  exact Relation.TransGen.single (List.mem_dedup.mp hx)

theorem all_parents_subset (m : Model) (c : Commit)
    (hU : ∀ x ∈ m.commits, parentsOf m x ⊆ m.commits)
    (hc : c ∈ m.commits) : all_parents m c ⊆ m.commits :=
  sat_subset_of_closed m m.commits hU _ _ (fun x hx => hU c hc (List.mem_dedup.mp hx))

theorem closed_mem_of_transGen (m : Model) (S : List Commit)
    (hclosed : ∀ x ∈ S, parentsOf m x ⊆ S) {q x : Commit}
    (hreach : Relation.TransGen (parentRel m) q x) (hq : q ∈ S) : x ∈ S := by
  induction hreach with
  | single h => exact hclosed q hq h
  | tail _ h ih => exact hclosed _ ih h

/-- Transitivity of the `all_parents` ancestor relation. -/
theorem all_parents_trans (m : Model) (c q p : Commit)
    (hU : ∀ x ∈ m.commits, parentsOf m x ⊆ m.commits)
    (hc : c ∈ m.commits)
    (hq : q ∈ all_parents m c) (hp : p ∈ all_parents m q) :
    p ∈ all_parents m c :=
  closed_mem_of_transGen m (all_parents m c) (all_parents_closed m c hU hc)
    (all_parents_sound m q p hp) hq


/-- A finite list with an irreflexive transitive relation has an element
with no predecessor in the list. -/
theorem exists_minimal_of_trans_irrefl {r : α → α → Prop} :
    ∀ (l : List α), l ≠ [] →
      (∀ x ∈ l, ¬ r x x) →
      (∀ x ∈ l, ∀ y ∈ l, ∀ z ∈ l, r x y → r y z → r x z) →
      ∃ x ∈ l, ∀ y ∈ l, ¬ r y x := by
  intro l
  induction l with
  | nil => intro h; exact absurd rfl h
  | cons a l ih =>
      intro _ hirr htr
      by_cases hl : l = []
      · subst hl
        refine ⟨a, List.mem_cons_self a [], ?_⟩
        intro y hy
        rw [List.mem_singleton] at hy
        subst hy
        exact hirr y (List.mem_cons_self y [])
      · obtain ⟨x, hxl, hxmin⟩ := ih hl
          (fun x hx => hirr x (List.mem_cons_of_mem a hx))
          (fun x hx y hy z hz => htr x (List.mem_cons_of_mem a hx)
            y (List.mem_cons_of_mem a hy) z (List.mem_cons_of_mem a hz))
        by_cases hax : r a x
        · refine ⟨a, List.mem_cons_self a l, ?_⟩
          intro y hy hya
          rcases List.mem_cons.mp hy with hy | hy
          · subst hy
            exact hirr y (List.mem_cons_self y l) hya
          · exact hxmin y hy (htr y (List.mem_cons_of_mem a hy)
              a (List.mem_cons_self a l) x (List.mem_cons_of_mem a hxl) hya hax)
        · refine ⟨x, List.mem_cons_of_mem a hxl, ?_⟩
          intro y hy hyx
          rcases List.mem_cons.mp hy with hy | hy
          · subst hy
            exact hax hyx
          · exact hxmin y hy hyx

/-- The inner pruning step never adds elements: any fold of it shrinks. -/
theorem inner_fold_subset (m : Model) (parent : Commit) :
    ∀ (il : List Commit) (sm : List Commit),
      il.foldl (fun sm q => if q ∈ sm ∧ parent ∈ all_parents m q
        then sm.erase q else sm) sm ⊆ sm := by
  intro il
  induction il with
  | nil => exact fun sm _ h => h
  | cons b il ih =>
      intro sm
      rw [List.foldl_cons]
      intro x hx
      have hx2 := ih _ hx
      by_cases hcond : b ∈ sm ∧ parent ∈ all_parents m b
      · rw [if_pos hcond] at hx2
        exact List.erase_subset _ _ hx2
      · rw [if_neg hcond] at hx2
        exact hx2

/-- The inner pruning fold only erases elements. -/
theorem prune_inner_subset (m : Model) (base : List Commit) (parent : Commit)
    (sm : List Commit) : prune_inner m base parent sm ⊆ sm :=
  inner_fold_subset m parent _ sm

/-- The inner pruning fold preserves `Nodup`. -/
theorem inner_fold_nodup (m : Model) (parent : Commit) :
    ∀ (il : List Commit) (sm : List Commit), sm.Nodup →
      (il.foldl (fun sm q => if q ∈ sm ∧ parent ∈ all_parents m q
        then sm.erase q else sm) sm).Nodup := by
  intro il
  induction il with
  | nil => exact fun sm h => h
  | cons b il ih =>
      intro sm h
      rw [List.foldl_cons]
      apply ih
      by_cases hcond : b ∈ sm ∧ parent ∈ all_parents m b
      · rw [if_pos hcond]
        exact h.erase b
      · rw [if_neg hcond]
        exact h

theorem prune_inner_nodup (m : Model) (base : List Commit) (parent : Commit)
    (sm : List Commit) (h : sm.Nodup) : (prune_inner m base parent sm).Nodup :=
  inner_fold_nodup m parent _ sm h

/-- An element whose ancestors do not include the pruner survives the inner
fold. -/
theorem mem_prune_inner_of_not_anc (m : Model) (base : List Commit)
    (parent : Commit) (sm : List Commit) (p : Commit)
    (hp : p ∈ sm) (hnotanc : parent ∉ all_parents m p) :
    p ∈ prune_inner m base parent sm := by
  unfold prune_inner
  generalize base.filter (fun q => decide (q ≠ parent)) = il
  induction il generalizing sm with
  | nil => exact hp
  | cons b il ih =>
      rw [List.foldl_cons]
      apply ih
      by_cases hcond : b ∈ sm ∧ parent ∈ all_parents m b
      · rw [if_pos hcond]
        have hbp : p ≠ b := by
          intro h
          subst h
          exact hnotanc hcond.2
        exact (List.mem_erase_of_ne hbp).mpr hp
      · rw [if_neg hcond]
        exact hp

/-- A base element distinct from the pruner whose ancestors include the
pruner does not survive the inner fold (on a duplicate-free working set). -/
theorem not_mem_prune_inner (m : Model) (base : List Commit) (parent : Commit)
    (sm : List Commit) (q : Commit)
    (hnd : sm.Nodup) (hq : q ∈ base) (hqp : q ≠ parent)
    (hanc : parent ∈ all_parents m q) :
    q ∉ prune_inner m base parent sm := by
  unfold prune_inner
  have hqil : q ∈ base.filter (fun x => decide (x ≠ parent)) := by
    rw [List.mem_filter]
    exact ⟨hq, by simpa using hqp⟩
  generalize base.filter (fun x => decide (x ≠ parent)) = il at hqil
  induction il generalizing sm with
  | nil => simp at hqil
  | cons b il ih =>
      rw [List.foldl_cons]
      by_cases hbq : b = q
      · subst hbq
        by_cases hbin : b ∈ sm
        · rw [if_pos ⟨hbin, hanc⟩]
          intro hmem
          exact hnd.not_mem_erase (inner_fold_subset m parent il _ hmem)
        · rw [if_neg (fun hc => hbin hc.1)]
          intro hmem
          exact hbin (inner_fold_subset m parent il _ hmem)
      · have hqil2 : q ∈ il := by
          rcases List.mem_cons.mp hqil with h | h
          · exact absurd h.symm hbq
          · exact h
        by_cases hcond : b ∈ sm ∧ parent ∈ all_parents m b
        · rw [if_pos hcond]
          exact ih _ (hnd.erase b) hqil2
        · rw [if_neg hcond]
          exact ih _ hnd hqil2


/-- The outer pruning fold only erases elements. -/
theorem outer_fold_subset (m : Model) (base : List Commit) :
    ∀ (order : List Commit) (sm : List Commit),
      order.foldl (fun sm parent =>
        if parent ∈ sm then prune_inner m base parent sm else sm) sm ⊆ sm := by
  intro order
  induction order with
  | nil => exact fun sm _ h => h
  | cons a order ih =>
      intro sm x hx
      rw [List.foldl_cons] at hx
      have hx2 := ih _ hx
      by_cases ha : a ∈ sm
      · rw [if_pos ha] at hx2
        exact prune_inner_subset m base a sm hx2
      · rw [if_neg ha] at hx2
        exact hx2

/-- The outer pruning fold preserves `Nodup`. -/
theorem outer_fold_nodup (m : Model) (base : List Commit) :
    ∀ (order : List Commit) (sm : List Commit), sm.Nodup →
      (order.foldl (fun sm parent =>
        if parent ∈ sm then prune_inner m base parent sm else sm) sm).Nodup := by
  intro order
  induction order with
  | nil => exact fun sm h => h
  | cons a order ih =>
      intro sm h
      rw [List.foldl_cons]
      apply ih
      by_cases ha : a ∈ sm
      · rw [if_pos ha]
        exact prune_inner_nodup m base a sm h
      · rw [if_neg ha]
        exact h

/-- A base-minimal element (no ancestor among the base set) survives the
whole pruning fold. -/
theorem minimal_survives (m : Model) (base : List Commit) (p : Commit)
    (hpmin : ∀ r ∈ base, r ∉ all_parents m p) :
    ∀ (order : List Commit) (sm : List Commit), (∀ a ∈ order, a ∈ base) →
      p ∈ sm →
      p ∈ order.foldl (fun sm parent =>
        if parent ∈ sm then prune_inner m base parent sm else sm) sm := by
  intro order
  induction order with
  | nil => exact fun sm _ hp => hp
  | cons a order ih =>
      intro sm horder hp
      rw [List.foldl_cons]
      apply ih _ (fun x hx => horder x (List.mem_cons_of_mem a hx))
      by_cases ha : a ∈ sm
      · rw [if_pos ha]
        exact mem_prune_inner_of_not_anc m base a sm p hp
          (hpmin a (horder a (List.mem_cons_self a order)))
      · rw [if_neg ha]
        exact hp

/-- A base element with a base-minimal strict ancestor in the pruning order
is erased by the fold and never returns. -/
theorem nonminimal_dies (m : Model) (base : List Commit) (p q : Commit)
    (hpq : p ∈ all_parents m q) (hqbase : q ∈ base) (hqp : q ≠ p)
    (hpmin : ∀ r ∈ base, r ∉ all_parents m p) :
    ∀ (order : List Commit) (sm : List Commit), (∀ a ∈ order, a ∈ base) →
      sm.Nodup → p ∈ order → p ∈ sm →
      q ∉ order.foldl (fun sm parent =>
        if parent ∈ sm then prune_inner m base parent sm else sm) sm := by
  intro order
  induction order with
  | nil =>
      intro sm _ _ hp _
      simp at hp
  | cons a order ih =>
      intro sm horder hnd hp hpsm
      rw [List.foldl_cons]
      by_cases hpa : p = a
      · subst hpa
        rw [if_pos hpsm]
        intro hmem
        have hq2 := outer_fold_subset m base order _ hmem
        exact not_mem_prune_inner m base p sm q hnd hqbase hqp hpq hq2
      · have hp2 : p ∈ order := by
          rcases List.mem_cons.mp hp with h | h
          · exact absurd h hpa
          · exact h
        by_cases ha : a ∈ sm
        · rw [if_pos ha]
          exact ih _ (fun x hx => horder x (List.mem_cons_of_mem a hx))
            (prune_inner_nodup m base a sm hnd) hp2
            (mem_prune_inner_of_not_anc m base a sm p hpsm
              (hpmin a (horder a (List.mem_cons_self a order))))
        · rw [if_neg ha]
          exact ih _ (fun x hx => horder x (List.mem_cons_of_mem a hx))
            hnd hp2 hpsm

/-- C2: on a well-formed model (parents edges inside the commit list, an
acyclic overlay graph, modification keys forming a set, and every modified
commit present among the keys), the set returned by `get_start_write_from`
is a covering antichain of the modified commits: every modified commit is
in it or has an element of it among its `all_parents`, and no two distinct
elements are ancestor and descendant. -/
theorem claim_C2 (m : Model)
    (hU : ∀ c ∈ m.commits, parentsOf m c ⊆ m.commits)
    (hacyc : ∀ c ∈ m.commits, c ∉ all_parents m c)
    (hbase : ∀ c ∈ gswf_base m, c ∈ m.commits)
    (hmods : ∀ c ∈ m.commits, commit_is_modified m c = true →
        c ∈ m.modifications.map Prod.fst)
    (hnodk : (m.modifications.map Prod.fst).Nodup) :
    (∀ c ∈ m.commits, commit_is_modified m c = true →
        c ∈ get_start_write_from m ∨
        ∃ p ∈ get_start_write_from m, p ∈ all_parents m c) ∧
    (∀ p ∈ get_start_write_from m, ∀ q ∈ get_start_write_from m, p ≠ q →
        p ∉ all_parents m q ∧ q ∉ all_parents m p) := by
  have hbnd : (gswf_base m).Nodup := List.Nodup.filter _ hnodk
  have hmem_base : ∀ c ∈ m.commits, commit_is_modified m c = true →
      c ∈ gswf_base m := by
    intro c hc hcm
    unfold gswf_base
    rw [List.mem_filter]
    exact ⟨hmods c hc hcm, hcm⟩
  have hminanc : ∀ q ∈ gswf_base m,
      ¬(∀ r ∈ gswf_base m, r ∉ all_parents m q) →
      ∃ p ∈ gswf_base m, p ∈ all_parents m q ∧
        ∀ r ∈ gswf_base m, r ∉ all_parents m p := by
    intro q hq hnm
    push_neg at hnm
    obtain ⟨r0, hr0b, hr0⟩ := hnm
    have hr0A : r0 ∈ (gswf_base m).filter
        (fun x => decide (x ∈ all_parents m q)) := by
      rw [List.mem_filter]
      exact ⟨hr0b, by simpa using hr0⟩
    obtain ⟨p, hpA, hpmin⟩ := @exists_minimal_of_trans_irrefl Commit
      (fun a b => a ∈ all_parents m b)
      ((gswf_base m).filter (fun x => decide (x ∈ all_parents m q)))
      (List.ne_nil_of_mem hr0A)
      (fun x hx => hacyc x (hbase x (List.mem_of_mem_filter hx)))
      (fun x _ y _ z hz hxy hyz =>
        all_parents_trans m z y x hU (hbase z (List.mem_of_mem_filter hz)) hyz hxy)
    have hpb := List.mem_of_mem_filter hpA
    have hpq : p ∈ all_parents m q := by
      have := (List.mem_filter.mp hpA).2
      simpa using this
    refine ⟨p, hpb, hpq, ?_⟩
    intro s hs hsp
    have hsq : s ∈ all_parents m q :=
      all_parents_trans m q p s hU (hbase q hq) hpq hsp
    have hsA : s ∈ (gswf_base m).filter
        (fun x => decide (x ∈ all_parents m q)) := by
      rw [List.mem_filter]
      exact ⟨hs, by simpa using hsq⟩
    exact hpmin s hsA hsp
  by_cases hspecial : gswf_base m = [] ∧ m.fake = true
  · constructor
    · intro c hc hcm
      exact absurd (hmem_base c hc hcm) (by rw [hspecial.1]; simp)
    · intro p hp q hq hne
      have hPeq : get_start_write_from m =
          (match m.commits with
           | c :: _ => [c]
           | [] => []) := by
        unfold get_start_write_from
        rw [if_pos hspecial]
      rw [hPeq] at hp hq
      cases hcs : m.commits with
      | nil =>
          rw [hcs] at hp
          simp at hp
      | cons c0 rest =>
          rw [hcs] at hp hq
          simp at hp hq
          subst hp
          subst hq
          exact absurd rfl hne
  · have hPeq : get_start_write_from m =
        (gswf_base m).foldl (fun sm parent =>
          if parent ∈ sm then prune_inner m (gswf_base m) parent sm else sm)
          (gswf_base m) := by
      unfold get_start_write_from
      rw [if_neg hspecial]
    have hPsub : get_start_write_from m ⊆ gswf_base m := by
      rw [hPeq]
      exact outer_fold_subset m (gswf_base m) (gswf_base m) (gswf_base m)
    have hfinal_min : ∀ x ∈ get_start_write_from m,
        ∀ r ∈ gswf_base m, r ∉ all_parents m x := by
      intro x hx
      by_contra hnm
      push_neg at hnm
      have hxb := hPsub hx
      obtain ⟨p, hpb, hpanc, hpmin⟩ := hminanc x hxb (by
        intro hall
        obtain ⟨r, hrb, hr⟩ := hnm
        exact hall r hrb hr)
      have hxp : x ≠ p := by
        intro h
        subst h
        exact hacyc x (hbase x hxb) hpanc
      rw [hPeq] at hx
      exact nonminimal_dies m (gswf_base m) p x hpanc hxb hxp hpmin
        (gswf_base m) (gswf_base m) (fun a ha => ha) hbnd hpb hpb hx
    constructor
    · intro c hc hcm
      have hcb := hmem_base c hc hcm
      by_cases hcmin : ∀ r ∈ gswf_base m, r ∉ all_parents m c
      · left
        rw [hPeq]
        exact minimal_survives m (gswf_base m) c hcmin (gswf_base m)
          (gswf_base m) (fun a ha => ha) hcb
      · right
        obtain ⟨p, hpb, hpanc, hpmin⟩ := hminanc c hcb hcmin
        refine ⟨p, ?_, hpanc⟩
        rw [hPeq]
        exact minimal_survives m (gswf_base m) p hpmin (gswf_base m)
          (gswf_base m) (fun a ha => ha) hpb
    · intro p hp q hq hne
      constructor
      · exact hfinal_min q hq p (hPsub hp)
      · exact hfinal_min p hp q (hPsub hq)


theorem claim_C2_witness :
    (∀ c ∈ exModel2.commits, commit_is_modified exModel2 c = true →
        c ∈ get_start_write_from exModel2 ∨
        ∃ p ∈ get_start_write_from exModel2, p ∈ all_parents exModel2 c) ∧
    (∀ p ∈ get_start_write_from exModel2, ∀ q ∈ get_start_write_from exModel2,
        p ≠ q → p ∉ all_parents exModel2 q ∧ q ∉ all_parents exModel2 p) :=
  claim_C2 exModel2 (by decide) (by decide) (by decide) (by decide) (by decide)

end Gfbi
